import Mathlib

/-!
# Verification of the usage-tracker core (Rust sources under src/src-tauri/src/usage/)

This file gives a shallow embedding, in Lean 4, of the event parser and
deduplicator (reader.rs), the statistics engine (stats.rs) and the incremental
cache manager (cache.rs) of the Claude-Code-Usage-Tracker repository, and
proves (or refutes) the frozen claims about them.

Modelling conventions:
* Rust u64/u32 token and message counters are modelled as Nat (the sums in the
  source cannot overflow in any scenario the claims quantify over, and the
  source itself treats them as mathematical counters).
* f64 currency amounts are modelled as rationals; the "round to 6 decimals"
  operation becomes exact rational rounding.
* chrono DateTime<Utc> instants are modelled as Int (seconds since the epoch).
  Flooring a timestamp to the top of its hour is subtraction of the Euclidean
  remainder mod 3600, and the calendar-date key used by the daily buckets is
  the floored day index (the source's "YYYY-MM-DD" rendering is in order- and
  equality-preserving bijection with the day index).
* std HashMap<K, V> is modelled as an association list in first-insertion
  order; HashMap iteration order in Rust is unspecified, so any deterministic
  order is a sound refinement of it.
* The chrono timestamp-string parser and the pricing calculator are external
  collaborators of the parser; they are threaded through the reader functions
  as explicit function arguments, exactly as the source threads
  "&PricingCalculator".
-/

namespace UsageTracker

/-! ## Association lists (model of std::collections::HashMap) -/

section Assoc

variable {α : Type} [DecidableEq α]

/-- Lookup in an association list (HashMap::get). -/
def lookupA {β : Type} (k : α) : List (α × β) → Option β
  | [] => none
  | (k', v) :: rest => if k = k' then some v else lookupA k rest

/-- HashMap::insert: replace the value in place if the key is present,
otherwise append the binding. -/
def insertA {β : Type} (k : α) (v : β) : List (α × β) → List (α × β)
  | [] => [(k, v)]
  | (k', v') :: rest => if k = k' then (k', v) :: rest else (k', v') :: insertA k v rest

/-- HashMap::entry(k).or_insert_with(init) followed by a mutation: update the
value at the key in place if present, otherwise append a fresh binding. -/
def upsertA {β : Type} (k : α) (f : Option β → β) : List (α × β) → List (α × β)
  | [] => [(k, f none)]
  | (k', v') :: rest => if k = k' then (k', f (some v')) :: rest else (k', v') :: upsertA k f rest

/-- HashMap::remove. -/
def removeA {β : Type} (k : α) : List (α × β) → List (α × β)
  | [] => []
  | (k', v') :: rest => if k = k' then rest else (k', v') :: removeA k rest

theorem lookupA_insertA_self {β : Type} (k : α) (v : β) (l : List (α × β)) :
    lookupA k (insertA k v l) = some v := by
  induction l with
  | nil => simp [insertA, lookupA]
  | cons hd tl ih =>
    obtain ⟨k', v'⟩ := hd
    by_cases h : k = k' <;> simp [insertA, lookupA, h, ih]

theorem lookupA_insertA_ne {β : Type} {k k0 : α} (v : β) (l : List (α × β))
    (h : k ≠ k0) : lookupA k (insertA k0 v l) = lookupA k l := by
  induction l with
  | nil => simp [insertA, lookupA, h]
  | cons hd tl ih =>
    obtain ⟨k', v'⟩ := hd
    by_cases h' : k0 = k' <;> by_cases h'' : k = k' <;>
      simp [insertA, lookupA, h, h', h'', ih]
    exact absurd (h''.trans h'.symm) h

theorem lookupA_upsertA_self {β : Type} (k : α) (f : Option β → β)
    (l : List (α × β)) :
    lookupA k (upsertA k f l) = some (f (lookupA k l)) := by
  induction l with
  | nil => simp [upsertA, lookupA]
  | cons hd tl ih =>
    obtain ⟨k', v'⟩ := hd
    by_cases h : k = k' <;> simp [upsertA, lookupA, h, ih]

theorem lookupA_upsertA_ne {β : Type} {k k0 : α} (f : Option β → β)
    (l : List (α × β)) (h : k ≠ k0) :
    lookupA k (upsertA k0 f l) = lookupA k l := by
  induction l with
  | nil => simp [upsertA, lookupA, h]
  | cons hd tl ih =>
    obtain ⟨k', v'⟩ := hd
    by_cases h' : k0 = k' <;> by_cases h'' : k = k' <;>
      simp [upsertA, lookupA, h, h', h'', ih]
    exact absurd (h''.trans h'.symm) h

/-- Keys of an association list. -/
def keysA {β : Type} (l : List (α × β)) : List α := l.map Prod.fst

theorem keysA_insertA {β : Type} (k : α) (v : β) (l : List (α × β)) :
    keysA (insertA k v l) = if k ∈ keysA l then keysA l else keysA l ++ [k] := by
  induction l with
  | nil => simp [insertA, keysA]
  | cons hd tl ih =>
    obtain ⟨k', v'⟩ := hd
    by_cases h : k = k'
    · simp [insertA, keysA, h]
    · by_cases h2 : k ∈ keysA tl <;>
        simp_all [insertA, keysA, h, h2, Ne.symm h]

theorem keysA_upsertA {β : Type} (k : α) (f : Option β → β) (l : List (α × β)) :
    keysA (upsertA k f l) = if k ∈ keysA l then keysA l else keysA l ++ [k] := by
  induction l with
  | nil => simp [upsertA, keysA]
  | cons hd tl ih =>
    obtain ⟨k', v'⟩ := hd
    by_cases h : k = k'
    · simp [upsertA, keysA, h]
    · by_cases h2 : k ∈ keysA tl <;>
        simp_all [upsertA, keysA, h, h2, Ne.symm h]

theorem nodup_keysA_insertA {β : Type} (k : α) (v : β) (l : List (α × β))
    (h : (keysA l).Nodup) : (keysA (insertA k v l)).Nodup := by
  rw [keysA_insertA]
  by_cases hm : k ∈ keysA l
  · simpa [hm]
  · simp only [hm, if_false]
    simpa [List.nodup_append] using ⟨h, fun hk => hm hk⟩

theorem nodup_keysA_upsertA {β : Type} (k : α) (f : Option β → β) (l : List (α × β))
    (h : (keysA l).Nodup) : (keysA (upsertA k f l)).Nodup := by
  rw [keysA_upsertA]
  by_cases hm : k ∈ keysA l
  · simpa [hm]
  · simp only [hm, if_false]
    simpa [List.nodup_append] using ⟨h, fun hk => hm hk⟩

theorem lookupA_isSome_iff_mem_keysA {β : Type} (k : α) (l : List (α × β)) :
    (lookupA k l).isSome ↔ k ∈ keysA l := by
  induction l with
  | nil => simp [lookupA, keysA]
  | cons hd tl ih =>
    obtain ⟨k', v'⟩ := hd
    by_cases h : k = k' <;> simp [lookupA, keysA, h, ih]

theorem lookupA_eq_none_iff_not_mem {β : Type} (k : α) (l : List (α × β)) :
    lookupA k l = none ↔ k ∉ keysA l := by
  rw [← lookupA_isSome_iff_mem_keysA]
  cases lookupA k l <;> simp

/-- In an association list with no duplicate keys, membership of a binding is
the same as a successful lookup. -/
theorem mem_iff_lookupA {β : Type} (k : α) (v : β) (l : List (α × β))
    (h : (keysA l).Nodup) : (k, v) ∈ l ↔ lookupA k l = some v := by
  induction l with
  | nil => simp [lookupA]
  | cons hd tl ih =>
    obtain ⟨k', v'⟩ := hd
    simp only [keysA, List.map_cons, List.nodup_cons] at h
    by_cases hk : k = k'
    · subst hk
      have : (k, v) ∉ tl := fun hmem => h.1 (List.mem_map.mpr ⟨(k, v), hmem, rfl⟩)
      simp only [lookupA, if_pos rfl, List.mem_cons, Prod.mk.injEq, true_and]
      constructor
      · rintro (rfl | hmem)
        · rfl
        · exact absurd hmem this
      · rintro h2
        exact Or.inl (Option.some.inj h2).symm
    · simp [lookupA, hk, ih h.2, Ne.symm hk]

end Assoc

/-! ## Decimal rendering of numbers (model of Rust format! of integers)

The synthetic deduplication keys of reader.rs interpolate a line number and a
timestamp into a string; we model the integer-to-string conversion with an
explicit decimal printer so that freshness of those keys is provable.  The
printer is fuel-based (fuel n is always enough for value n) so that it is
structurally recursive and evaluates inside the kernel. -/

/-- The decimal digit character for a value below ten. -/
def digitChar (n : Nat) : Char := Char.ofNat (48 + n)

/-- Fuel-based decimal printer accumulating least-significant digits. -/
def natStrGo : Nat → Nat → List Char → List Char
  | 0, _, acc => acc
  | fuel + 1, n, acc =>
      if n = 0 then acc else natStrGo fuel (n / 10) (digitChar (n % 10) :: acc)

/-- Decimal rendering of a natural number. -/
def natStr (n : Nat) : String := if n = 0 then "0" else ⟨natStrGo n n []⟩

/-- Decimal rendering of an integer. -/
def intStr (i : Int) : String :=
  if i < 0 then "-" ++ natStr i.natAbs else natStr i.natAbs

theorem natStrGo_append (fuel : Nat) : ∀ (n : Nat) (acc : List Char),
    natStrGo fuel n acc = natStrGo fuel n [] ++ acc := by
  induction fuel with
  | zero => intro n acc; simp [natStrGo]
  | succ fuel ih =>
    intro n acc
    by_cases h : n = 0
    · simp [natStrGo, h]
    · rw [natStrGo, natStrGo, if_neg h, if_neg h, ih (n / 10), ih (n / 10) [digitChar (n % 10)]]
      simp

/-- The numeric value read back from a digit list. -/
def digitsVal (l : List Char) : Nat := l.foldl (fun a c => a * 10 + (c.toNat - 48)) 0

theorem digitsVal_append (l1 l2 : List Char) :
    digitsVal (l1 ++ l2) = l2.foldl (fun a c => a * 10 + (c.toNat - 48)) (digitsVal l1) := by
  simp [digitsVal, List.foldl_append]

theorem digitChar_toNat (n : Nat) (h : n < 10) : (digitChar n).toNat = 48 + n := by
  interval_cases n <;> rfl

theorem digitsVal_natStrGo (fuel : Nat) : ∀ n : Nat, n ≤ fuel →
    digitsVal (natStrGo fuel n []) = n := by
  induction fuel with
  | zero => intro n hn; interval_cases n; simp [natStrGo, digitsVal]
  | succ fuel ih =>
    intro n hn
    by_cases h : n = 0
    · simp [natStrGo, h, digitsVal]
    · rw [natStrGo, if_neg h, natStrGo_append, digitsVal_append,
        ih (n / 10) (by omega)]
      simp only [List.foldl_cons, List.foldl_nil]
      rw [digitChar_toNat _ (Nat.mod_lt _ (by omega))]
      omega

theorem digitsVal_natStr (n : Nat) : digitsVal (natStr n).data = n := by
  rw [natStr]
  by_cases h : n = 0
  · subst h; decide
  · rw [if_neg h]
    exact digitsVal_natStrGo n n le_rfl

/-- The decimal printer is injective. -/
theorem natStr_injective : Function.Injective natStr := by
  intro a b h
  have ha := digitsVal_natStr a
  rw [h, digitsVal_natStr] at ha
  omega

theorem mem_natStrGo_digit (fuel : Nat) : ∀ (n : Nat) (acc : List Char) (c : Char),
    c ∈ natStrGo fuel n acc → c ∈ acc ∨ (48 ≤ c.toNat ∧ c.toNat ≤ 57) := by
  induction fuel with
  | zero => intro n acc c hc; exact Or.inl hc
  | succ fuel ih =>
    intro n acc c hc
    by_cases h : n = 0
    · rw [natStrGo, if_pos h] at hc
      exact Or.inl hc
    · rw [natStrGo, if_neg h] at hc
      rcases ih (n / 10) _ c hc with h2 | h2
      · rcases List.mem_cons.mp h2 with rfl | h3
        · right
          rw [digitChar_toNat _ (Nat.mod_lt _ (by omega))]
          omega
        · exact Or.inl h3
      · exact Or.inr h2

/-- Every character of a rendered natural number is a decimal digit. -/
theorem natStr_chars_digit (n : Nat) (c : Char) (hc : c ∈ (natStr n).data) :
    48 ≤ c.toNat ∧ c.toNat ≤ 57 := by
  rw [natStr] at hc
  by_cases h : n = 0
  · rw [if_pos h] at hc
    have hc2 : c ∈ [Char.ofNat 48] := hc
    rcases List.mem_singleton.mp hc2 with rfl
    decide
  · rw [if_neg h] at hc
    rcases mem_natStrGo_digit n n [] c hc with h2 | h2
    · simp at h2
    · exact h2

/-- Every character of a rendered integer is a decimal digit or a minus sign. -/
theorem intStr_chars (i : Int) (c : Char) (hc : c ∈ (intStr i).data) :
    (48 ≤ c.toNat ∧ c.toNat ≤ 57) ∨ c = Char.ofNat 45 := by
  rw [intStr] at hc
  by_cases h : i < 0
  · rw [if_pos h] at hc
    have hdata : ("-" ++ natStr i.natAbs).data = Char.ofNat 45 :: (natStr i.natAbs).data := by
      rw [String.data_append]; rfl
    rw [hdata] at hc
    rcases List.mem_cons.mp hc with rfl | h2
    · exact Or.inr rfl
    · exact Or.inl (natStr_chars_digit _ _ h2)
  · rw [if_neg h] at hc
    exact Or.inl (natStr_chars_digit _ _ hc)

theorem intStr_injective : Function.Injective intStr := by
  intro a b h
  rw [intStr, intStr] at h
  by_cases ha : a < 0 <;> by_cases hb : b < 0
  · rw [if_pos ha, if_pos hb] at h
    have hdata := congrArg String.data h
    rw [String.data_append, String.data_append] at hdata
    have hd : (natStr a.natAbs).data = (natStr b.natAbs).data :=
      List.append_inj_right hdata rfl
    have := natStr_injective (String.ext hd)
    omega
  · exfalso
    rw [if_pos ha, if_neg hb] at h
    have hdata := congrArg String.data h
    rw [String.data_append] at hdata
    have hmem : Char.ofNat 45 ∈ (natStr b.natAbs).data := by
      rw [← hdata]
      exact List.mem_append_left _ (by decide)
    have := natStr_chars_digit _ _ hmem
    revert this; decide
  · exfalso
    rw [if_neg ha, if_pos hb] at h
    have hdata := congrArg String.data h
    rw [String.data_append] at hdata
    have hmem : Char.ofNat 45 ∈ (natStr a.natAbs).data := by
      rw [hdata]
      exact List.mem_append_left _ (by decide)
    have := natStr_chars_digit _ _ hmem
    revert this; decide
  · rw [if_neg ha, if_neg hb] at h
    have := natStr_injective h
    omega

/-! ## Remaining string and numeric helpers -/

/-- ASCII lowercase of one character (model of the effect of Rust
str::to_lowercase on the ASCII model names this program handles). -/
def charLower (c : Char) : Char :=
  if 65 ≤ c.toNat ∧ c.toNat ≤ 90 then Char.ofNat (c.toNat + 32) else c

/-- Lowercase a string (model of str::to_lowercase). -/
def strLower (s : String) : String := ⟨s.data.map charLower⟩

/-- Is pat a (contiguous) prefix of l? -/
def listPref : List Char → List Char → Bool
  | [], _ => true
  | _ :: _, [] => false
  | p :: ps, c :: cs => p = c && listPref ps cs

/-- Does l contain pat as a contiguous substring? (model of str::contains) -/
def listSub (pat : List Char) : List Char → Bool
  | [] => pat.isEmpty
  | c :: cs => listPref pat (c :: cs) || listSub pat cs

/-- str::contains with a string pattern. -/
def strContains (s pat : String) : Bool := listSub pat.data s.data

/-- Round a rational to six decimal places, as the source does with
(x * 1_000_000.0).round() / 1_000_000.0.  Rat.floor of x + 1/2 is
round-half-up, which agrees with f64::round on the non-negative currency
amounts this program manipulates. -/
def round6 (q : ℚ) : ℚ := (Rat.floor (q * 1000000 + 1 / 2) : ℚ) / 1000000

/-- Round a rational to two decimal places (used for percentages). -/
def round2 (q : ℚ) : ℚ := (Rat.floor (q * 100 + 1 / 2) : ℚ) / 100

/-! ## Data model (models.rs)

SessionEvent, Message and Usage mirror the serde structures; fields the core
never reads (role, content, uuid) are omitted.  The timestamp of a parsed
entry is an Int instant; the raw event carries the unparsed string. -/

/-- Token usage block (models.rs Usage).  The serde aliases for historical
field spellings are resolved by the JSON layer and invisible here. -/
structure Usage where
  input_tokens : Option Nat
  output_tokens : Option Nat
  cache_creation_tokens : Option Nat
  cache_read_tokens : Option Nat
deriving DecidableEq

/-- Nested message object of a raw event (models.rs Message). -/
structure Message where
  id : Option String
  model : Option String
  usage : Option Usage
deriving DecidableEq

/-- One raw JSONL record (models.rs SessionEvent). -/
structure SessionEvent where
  event_type : Option String
  message : Option Message
  timestamp : Option String
  cost : Option ℚ
  usage : Option Usage
  message_id : Option String
  request_id : Option String
deriving DecidableEq

/-- One normalized usage record (models.rs UsageEntry). -/
structure UsageEntry where
  timestamp : Int
  input_tokens : Nat
  output_tokens : Nat
  cache_creation_tokens : Nat
  cache_read_tokens : Nat
  cost_usd : ℚ
  model : String
  message_id : String
  request_id : String
deriving DecidableEq

/-- External collaborators threaded through the reader: the pricing
calculator (pricing.rs, called as pricing.calculate_cost(model, i, o, cc, cr))
and the chrono timestamp parser behind parse_timestamp (reader.rs lines
223-245), which turns an ISO-8601 string into an instant or fails. -/
structure Env where
  calculate_cost : String → Nat → Nat → Nat → Nat → ℚ
  parse_timestamp : String → Option Int

/-! ## Event parser and deduplicator (reader.rs) -/

/-- reader.rs extract_model: the model name from the nested message,
defaulting to the fixed baseline. -/
def extract_model (event : SessionEvent) : String :=
  ((event.message.bind Message.model).getD "claude-3-5-sonnet")

/-- Does a usage block report a positive input or output count?
(reader.rs lines 200-201). -/
def has_tokens (u : Usage) : Bool :=
  decide (0 < u.input_tokens.getD 0) || decide (0 < u.output_tokens.getD 0)

/-- First usage block in a list of optional sources that has tokens
(reader.rs lines 199-207: for source in token_sources.into_iter().flatten()). -/
def firstWithTokens : List (Option Usage) → Option Usage
  | [] => none
  | none :: rest => firstWithTokens rest
  | some u :: rest => if has_tokens u then some u else firstWithTokens rest

/-- reader.rs extract_tokens_and_model (lines 182-210). -/
def extract_tokens_and_model (event : SessionEvent) : Option (Usage × String) :=
  let is_assistant := event.event_type = some "assistant"
  let token_sources : List (Option Usage) :=
    if is_assistant then
      [event.message.bind Message.usage, event.usage]
    else
      [event.usage, event.message.bind Message.usage]
  (firstWithTokens token_sources).map (fun u => (u, extract_model event))

/-- reader.rs process_event (lines 139-179). -/
def process_event (env : Env) (event : SessionEvent) : Option UsageEntry := do
  let ts ← event.timestamp
  let timestamp ← env.parse_timestamp ts
  let (tokens, model) ← extract_tokens_and_model event
  let cost_usd := event.cost.getD
    (env.calculate_cost model (tokens.input_tokens.getD 0) (tokens.output_tokens.getD 0)
      (tokens.cache_creation_tokens.getD 0) (tokens.cache_read_tokens.getD 0))
  let message_id := (event.message_id <|> (event.message.bind Message.id)).getD ""
  let request_id := event.request_id.getD "unknown"
  pure {
    timestamp := timestamp
    input_tokens := tokens.input_tokens.getD 0
    output_tokens := tokens.output_tokens.getD 0
    cache_creation_tokens := tokens.cache_creation_tokens.getD 0
    cache_read_tokens := tokens.cache_read_tokens.getD 0
    cost_usd := cost_usd
    model := model
    message_id := message_id
    request_id := request_id
  }

/-- reader.rs get_dedup_key (lines 250-270): a composite key only when both a
message id (nested id preferred, top-level fallback) and a request id are
present. -/
def get_dedup_key (event : SessionEvent) : Option String :=
  let message_id := (event.message.bind Message.id) <|> event.message_id
  let request_id := event.request_id <|> event.request_id
  match message_id, request_id with
  | some mid, some rid => some (mid ++ ":" ++ rid)
  | _, _ => none

/-- The synthetic per-line key used when no dedup key exists
(reader.rs line 121: format!("no_dedup_X_Y", line_num, entry.timestamp)). -/
def no_dedup_key (line_num : Nat) (timestamp : Int) : String :=
  "no_dedup_" ++ natStr line_num ++ "_" ++ intStr timestamp

/-- One source line: a line that fails JSON parsing (or is empty) is none;
the line number stays attached so that the enumerate in read_jsonl_file is
reproduced faithfully. -/
abbrev SourceLine := Option SessionEvent

/-- The body of read_jsonl_file's loop for one line (reader.rs lines 95-133). -/
def readLineStep (env : Env) (acc : List (String × UsageEntry)) :
    Nat × SourceLine → List (String × UsageEntry)
  | (_, none) => acc
  | (line_num, some event) =>
    match process_event env event with
    | none => acc
    | some entry =>
      match get_dedup_key event with
      | some key => insertA key entry acc
      | none => insertA (no_dedup_key line_num entry.timestamp) entry acc

/-- reader.rs read_jsonl_file (lines 86-136), as the final deduplication map:
each line is parsed, processed, and inserted under its dedup key (or a unique
synthetic key). -/
def read_jsonl_map (env : Env) (lines : List SourceLine) : List (String × UsageEntry) :=
  (lines.enum).foldl (readLineStep env) []

/-- reader.rs read_jsonl_file result: entries_by_id.into_values().collect(). -/
def read_jsonl_file (env : Env) (lines : List SourceLine) : List UsageEntry :=
  (read_jsonl_map env lines).map Prod.snd

/-! ## Statistics (stats.rs; cache.rs repeats the same definitions verbatim
at lines 475-700 for its own use, so each definition below embeds both
copies at once) -/

/-- Floor an instant to the top of its hour
(.with_minute(0).with_second(0).with_nanosecond(0)). -/
def floorHour (t : Int) : Int := t - Int.emod t 3600

/-- The calendar-date key of an instant (source: the formatted
"YYYY-MM-DD" of year()/month()/day(); modelled as the floored day index,
which is in order- and equality-preserving bijection with that string). -/
def dateKey (t : Int) : Int := Int.fdiv t 86400

/-- Model of DateTime::to_rfc3339 for activity timestamps; only the induced
equality on instants matters to the claims (the source compares the rendered
strings with a fixed formatting, which is equality- and order-compatible
with the instants). -/
def to_rfc3339 (t : Int) : String := intStr t

/-- models.rs ProjectStats. -/
structure ProjectStats where
  project_path : String
  display_name : String
  total_input_tokens : Nat
  total_output_tokens : Nat
  cache_creation_tokens : Nat
  cache_read_tokens : Nat
  total_cost_usd : ℚ
  message_count : Nat
  session_count : Nat
  first_activity : Option String
  last_activity : Option String
deriving DecidableEq

/-- models.rs DailyUsage (the date is the day-index model of the
"YYYY-MM-DD" string key). -/
structure DailyUsage where
  date : Int
  input_tokens : Nat
  output_tokens : Nat
  cache_creation_tokens : Nat
  cache_read_tokens : Nat
  cost_usd : ℚ
  message_count : Nat
deriving DecidableEq

/-- models.rs ModelStats. -/
structure ModelStats where
  model : String
  input_tokens : Nat
  output_tokens : Nat
  cache_creation_tokens : Nat
  cache_read_tokens : Nat
  total_tokens : Nat
  cost_usd : ℚ
  message_count : Nat
  percentage : ℚ
deriving DecidableEq

/-- reader.rs ProjectData. -/
structure ProjectData where
  encoded_path : String
  decoded_path : String
  display_name : String
  session_files : List String
deriving DecidableEq

/-- stats.rs normalize_model_name (lines 69-107; identical copy at
cache.rs lines 615-653). -/
def normalize_model_name (model : String) : String :=
  let model_lower := strLower model
  if strContains model_lower "claude-opus-4-" || strContains model_lower "claude-sonnet-4-"
      || strContains model_lower "claude-haiku-4-" || strContains model_lower "opus-4-"
      || strContains model_lower "sonnet-4-" || strContains model_lower "haiku-4-" then
    model_lower
  else if strContains model_lower "opus" then
    if strContains model_lower "4-" then model_lower else "claude-3-opus"
  else if strContains model_lower "sonnet" then
    if strContains model_lower "4-" then model_lower
    else if strContains model_lower "3.5" || strContains model_lower "3-5" then
      "claude-3-5-sonnet"
    else "claude-3-sonnet"
  else if strContains model_lower "haiku" then
    if strContains model_lower "3.5" || strContains model_lower "3-5" then "claude-3-5-haiku"
    else "claude-3-haiku"
  else model

/-- A fresh ModelStats bucket for a normalized key
(ModelStats { model: key, ..Default::default() }). -/
def initModelStats (key : String) : ModelStats :=
  { model := key, input_tokens := 0, output_tokens := 0, cache_creation_tokens := 0
    cache_read_tokens := 0, total_tokens := 0, cost_usd := 0, message_count := 0
    percentage := 0 }

/-- Accumulate one entry into a ModelStats bucket
(stats.rs lines 124-130). -/
def addModelStats (m : ModelStats) (e : UsageEntry) : ModelStats :=
  { m with
    input_tokens := m.input_tokens + e.input_tokens
    output_tokens := m.output_tokens + e.output_tokens
    cache_creation_tokens := m.cache_creation_tokens + e.cache_creation_tokens
    cache_read_tokens := m.cache_read_tokens + e.cache_read_tokens
    cost_usd := m.cost_usd + e.cost_usd
    message_count := m.message_count + 1
    total_tokens := m.total_tokens + (e.input_tokens + e.output_tokens) }

/-- Loop body of calculate_model_distribution (map of buckets plus the
running grand total of input+output tokens). -/
def modelDistStep (acc : List (String × ModelStats) × Nat) (e : UsageEntry) :
    List (String × ModelStats) × Nat :=
  let key := normalize_model_name e.model
  (upsertA key (fun m => addModelStats ((m).getD (initModelStats key)) e) acc.1,
   acc.2 + (e.input_tokens + e.output_tokens))

/-- stats.rs calculate_model_distribution (lines 110-151; identical copy at
cache.rs lines 656-700): group by normalized model name, compute rounded
percentages and costs, sort by total tokens descending. -/
def calculate_model_distribution (entries : List UsageEntry) : List ModelStats :=
  let acc := entries.foldl modelDistStep ([], 0)
  let vals := acc.1.map (fun p =>
    let m := p.2
    let pct : ℚ := if 0 < acc.2 then (m.total_tokens : ℚ) / (acc.2 : ℚ) * 100 else 0
    { m with cost_usd := round6 m.cost_usd, percentage := round2 pct })
  List.insertionSort (fun a b : ModelStats => b.total_tokens ≤ a.total_tokens) vals

/-- stats.rs SessionBlock (lines 154-161; cache.rs lines 479-486). -/
structure SessionBlock where
  start_time : Int
  actual_end_time : Int
  total_tokens : Nat
  total_cost : ℚ
  is_active : Bool
deriving DecidableEq

/-- Add one entry to the open block (stats.rs lines 205-211). -/
def addEntryToBlock (b : SessionBlock) (e : UsageEntry) : SessionBlock :=
  { b with
    total_tokens := b.total_tokens + (e.input_tokens + e.output_tokens)
    total_cost := b.total_cost + e.cost_usd
    actual_end_time := e.timestamp }

/-- Loop body of transform_to_blocks (stats.rs lines 175-212). -/
def blocksStep (acc : List SessionBlock × Option SessionBlock) (e : UsageEntry) :
    List SessionBlock × Option SessionBlock :=
  let should_create_new := match acc.2 with
    | none => true
    | some b => decide (b.start_time + 18000 ≤ e.timestamp)
  if should_create_new then
    (acc.1 ++ acc.2.toList,
     some (addEntryToBlock
       { start_time := floorHour e.timestamp, actual_end_time := e.timestamp
         total_tokens := 0, total_cost := 0, is_active := false } e))
  else
    (acc.1, acc.2.map (fun b => addEntryToBlock b e))

/-- stats.rs transform_to_blocks (lines 165-225; cache.rs lines 489-541):
group time-sorted entries into 5-hour blocks anchored at the hour; the last
block is marked active when its window extends past now. -/
def transform_to_blocks (entries : List UsageEntry) (now : Int) : List SessionBlock :=
  match entries.foldl blocksStep ([], none) with
  | (blocks, none) => blocks
  | (blocks, some b) =>
      blocks ++ [if now < b.start_time + 18000 then { b with is_active := true } else b]

/-- Loop body of calculate_hourly_burn_rate for one block
(stats.rs lines 238-277). -/
def burnStep (current_time : Int) (acc : ℚ × ℚ) (block : SessionBlock) : ℚ × ℚ :=
  let one_hour_ago := current_time - 3600
  let session_actual_end := if block.is_active then current_time else block.actual_end_time
  if session_actual_end < one_hour_ago then acc
  else
    let session_start_in_hour :=
      if one_hour_ago < block.start_time then block.start_time else one_hour_ago
    let session_end_in_hour :=
      if session_actual_end < current_time then session_actual_end else current_time
    if session_end_in_hour ≤ session_start_in_hour then acc
    else
      let total_session_duration : ℚ := ((session_actual_end - block.start_time : Int) : ℚ) / 60
      let hour_duration : ℚ := ((session_end_in_hour - session_start_in_hour : Int) : ℚ) / 60
      if 0 < total_session_duration then
        (acc.1 + (block.total_tokens : ℚ) * (hour_duration / total_session_duration),
         acc.2 + block.total_cost * (hour_duration / total_session_duration))
      else acc

/-- stats.rs calculate_hourly_burn_rate (lines 229-285; cache.rs lines
544-597): proportional allocation of block totals over the trailing hour,
returning (tokens per minute, cost per hour). -/
def calculate_hourly_burn_rate (blocks : List SessionBlock) (current_time : Int) : ℚ × ℚ :=
  if blocks.isEmpty then (0, 0)
  else
    let s := blocks.foldl (burnStep current_time) (0, 0)
    if 0 < s.1 then (s.1 / 60, s.2 / 60 * 60) else (0, 0)

/-- stats.rs calculate_time_to_reset (lines 288-300; cache.rs lines 600-612).
chrono num_minutes truncates toward zero, hence Int.tdiv / Int.tmod. -/
def calculate_time_to_reset (session_start : Option Int) (now : Int) : Int :=
  match session_start with
  | some start =>
    let elapsed_minutes := Int.tdiv (now - start) 60
    if elapsed_minutes < 0 then 300
    else max (300 - Int.tmod elapsed_minutes 300) 0
  | none => 300

/-- The empty ProjectStats a project starts from
(stats.rs lines 304-309). -/
def initProjectStats (project : ProjectData) : ProjectStats :=
  { project_path := project.decoded_path, display_name := project.display_name
    session_count := project.session_files.length
    total_input_tokens := 0, total_output_tokens := 0, cache_creation_tokens := 0
    cache_read_tokens := 0, total_cost_usd := 0, message_count := 0
    first_activity := none, last_activity := none }

/-- The first-activity update of stats.rs lines 321-325: keep the smaller
rendered timestamp, seeding from none. -/
def minActivity (o : Option String) (ts : String) : Option String :=
  match o with
  | none => some ts
  | some f => if ts < f then some ts else some f

/-- The last-activity update of stats.rs lines 326-330. -/
def maxActivity (o : Option String) (ts : String) : Option String :=
  match o with
  | none => some ts
  | some l => if l < ts then some ts else some l

/-- Accumulate one entry into ProjectStats (stats.rs lines 311-331). -/
def projectStatsStep (stats : ProjectStats) (entry : UsageEntry) : ProjectStats :=
  let ts := to_rfc3339 entry.timestamp
  { stats with
    total_input_tokens := stats.total_input_tokens + entry.input_tokens
    total_output_tokens := stats.total_output_tokens + entry.output_tokens
    cache_creation_tokens := stats.cache_creation_tokens + entry.cache_creation_tokens
    cache_read_tokens := stats.cache_read_tokens + entry.cache_read_tokens
    total_cost_usd := stats.total_cost_usd + entry.cost_usd
    message_count := stats.message_count + 1
    first_activity := minActivity stats.first_activity ts
    last_activity := maxActivity stats.last_activity ts }

/-- stats.rs calculate_project_stats (lines 303-337; same logic inline at
cache.rs lines 721-750). -/
def calculate_project_stats (project : ProjectData) (entries : List UsageEntry) :
    ProjectStats :=
  let s := entries.foldl projectStatsStep (initProjectStats project)
  { s with total_cost_usd := round6 s.total_cost_usd }

/-- A fresh DailyUsage bucket for a date key. -/
def initDaily (key : Int) : DailyUsage :=
  { date := key, input_tokens := 0, output_tokens := 0, cache_creation_tokens := 0
    cache_read_tokens := 0, cost_usd := 0, message_count := 0 }

/-- Accumulate one entry into a DailyUsage bucket (stats.rs lines 356-361). -/
def addDaily (d : DailyUsage) (e : UsageEntry) : DailyUsage :=
  { d with
    input_tokens := d.input_tokens + e.input_tokens
    output_tokens := d.output_tokens + e.output_tokens
    cache_creation_tokens := d.cache_creation_tokens + e.cache_creation_tokens
    cache_read_tokens := d.cache_read_tokens + e.cache_read_tokens
    cost_usd := d.cost_usd + e.cost_usd
    message_count := d.message_count + 1 }

/-- Loop body of calculate_daily_usage. -/
def dailyStep (acc : List (Int × DailyUsage)) (e : UsageEntry) : List (Int × DailyUsage) :=
  let key := dateKey e.timestamp
  upsertA key (fun d => addDaily (d.getD (initDaily key)) e) acc

/-- stats.rs calculate_daily_usage (lines 340-375; same logic inline at
cache.rs lines 754-784): bucket entries by calendar date, round each cost,
sort ascending by date. -/
def calculate_daily_usage (entries : List UsageEntry) : List DailyUsage :=
  let m := entries.foldl dailyStep []
  let vals := m.map (fun p => { p.2 with cost_usd := round6 p.2.cost_usd })
  List.insertionSort (fun a b : DailyUsage => a.date ≤ b.date) vals

/-! ## Remaining output aggregates (models.rs) -/

/-- models.rs BurnRate. -/
structure BurnRate where
  tokens_per_minute : ℚ
  cost_per_hour : ℚ
deriving DecidableEq

/-- models.rs TodayStats. -/
structure TodayStats where
  cost_usd : ℚ
  input_tokens : Nat
  output_tokens : Nat
  total_tokens : Nat
  message_count : Nat
deriving DecidableEq

/-- The all-zero TodayStats (Default::default()). -/
def initTodayStats : TodayStats :=
  { cost_usd := 0, input_tokens := 0, output_tokens := 0, total_tokens := 0, message_count := 0 }

/-- models.rs OverallStats. -/
structure OverallStats where
  total_input_tokens : Nat
  total_output_tokens : Nat
  cache_creation_tokens : Nat
  cache_read_tokens : Nat
  total_cost_usd : ℚ
  total_messages : Nat
  total_sessions : Nat
  project_count : Nat
  model_distribution : List ModelStats
  session_start_time : Option String
  time_to_reset_minutes : Int
  burn_rate : Option BurnRate
  today_stats : TodayStats
deriving DecidableEq

/-- models.rs UsageData (the data_source field is set by the command layer
outside the core and is omitted). -/
structure UsageData where
  projects : List ProjectStats
  daily_usage : List DailyUsage
  overall_stats : OverallStats
deriving DecidableEq

/-- models.rs UsageDataDelta. -/
structure UsageDataDelta where
  has_changes : Bool
  full_refresh : Bool
  updated_projects : List ProjectStats
  overall_stats : Option OverallStats
  daily_usage : Option (List DailyUsage)
deriving DecidableEq

/-- Round a rational to four decimal places (burn-rate cost display). -/
def round4 (q : ℚ) : ℚ := (Rat.floor (q * 10000 + 1 / 2) : ℚ) / 10000

/-! ## Filesystem model and project listing (config.rs, reader.rs) -/

/-- config.rs decode_project_path, first pass: each "--" becomes ":\". -/
def decodeDashDash : List Char → List Char
  | [] => []
  | '-' :: '-' :: rest => ':' :: '\\' :: decodeDashDash rest
  | c :: rest => c :: decodeDashDash rest

/-- config.rs decode_project_path (lines 35-40): replace "--" with ":\",
then every remaining "-" with "\". -/
def decode_project_path (encoded : String) : String :=
  ⟨(decodeDashDash encoded.data).map (fun c => if c = '-' then '\\' else c)⟩

/-- The component of a path after its last backslash separator
(config.rs get_display_name via Path::file_name, on the backslash-separated
decoded paths this program produces). -/
def lastComponent : List Char → List Char → List Char
  | [], comp => comp
  | c :: rest, comp =>
      if c = '\\' then lastComponent rest [] else lastComponent rest (comp ++ [c])

/-- config.rs get_display_name (lines 43-50). -/
def get_display_name (project_path : String) : String :=
  ⟨lastComponent project_path.data []⟩

/-- One on-disk JSONL file: its path, its modification time, and its lines
(a line that is empty or fails JSON parsing is none, as in SourceLine). -/
structure SrcFile where
  path : String
  mtime : Nat
  lines : List SourceLine
deriving DecidableEq

/-- One project directory under the projects root. -/
structure ProjDir where
  encoded_path : String
  files : List SrcFile
deriving DecidableEq

/-- The observable on-disk state: whether the projects root exists and the
project directories below it. -/
structure Disk where
  root_exists : Bool
  dirs : List ProjDir
deriving DecidableEq

/-- reader.rs ReaderError, restricted to the variants the modelled
filesystem can produce. -/
inductive ReaderError where
  | dirNotFound (path : String)
  | ioError (path : String)
deriving DecidableEq

/-- All files on the disk, in directory order. -/
def Disk.allFiles (d : Disk) : List SrcFile := d.dirs.flatMap ProjDir.files

/-- Find a file on disk by path (File::open / fs::metadata). -/
def Disk.findFile (d : Disk) (p : String) : Option SrcFile :=
  d.allFiles.find? (fun f => f.path = p)

/-- reader.rs list_projects (lines 39-83): error when the projects root is
missing; otherwise one ProjectData per directory that contains at least one
session file. -/
def list_projects (d : Disk) : Except ReaderError (List ProjectData) :=
  if d.root_exists then
    .ok (d.dirs.filterMap (fun dir =>
      if dir.files.isEmpty then none
      else
        let decoded := decode_project_path dir.encoded_path
        some { encoded_path := dir.encoded_path, decoded_path := decoded
               display_name := get_display_name decoded
               session_files := dir.files.map SrcFile.path }))
  else .error (.dirNotFound "projects")

/-- read_jsonl_file reached through the filesystem: opening a missing file
is an I/O error, otherwise the parse of its lines. -/
def readFileOnDisk (env : Env) (d : Disk) (p : String) : Except ReaderError (List UsageEntry) :=
  match d.findFile p with
  | none => .error (.ioError p)
  | some f => .ok (read_jsonl_file env f.lines)

/-! ## Usage-data assembly (cache.rs calculate_usage_data, lines 703-878)

now is the Utc::now() instant of the refresh; tz is the local-timezone
offset in seconds, so that the Local calendar date of an instant t is
dateKey (t + tz). -/

/-- Local calendar date of an instant under a fixed timezone offset. -/
def localDate (tz t : Int) : Int := dateKey (t + tz)

/-- Fold step for the overall sums across projects
(cache.rs lines 792-800; stats.rs lines 384-392). -/
def overallStep (o : OverallStats) (p : ProjectStats) : OverallStats :=
  { o with
    total_input_tokens := o.total_input_tokens + p.total_input_tokens
    total_output_tokens := o.total_output_tokens + p.total_output_tokens
    cache_creation_tokens := o.cache_creation_tokens + p.cache_creation_tokens
    cache_read_tokens := o.cache_read_tokens + p.cache_read_tokens
    total_cost_usd := o.total_cost_usd + p.total_cost_usd
    total_messages := o.total_messages + p.message_count
    total_sessions := o.total_sessions + p.session_count }

/-- Fold step for today's stats (cache.rs lines 810-819). -/
def todayStep (tz today_local : Int) (t : TodayStats) (e : UsageEntry) : TodayStats :=
  if localDate tz e.timestamp = today_local then
    { t with
      input_tokens := t.input_tokens + e.input_tokens
      output_tokens := t.output_tokens + e.output_tokens
      cost_usd := t.cost_usd + e.cost_usd
      message_count := t.message_count + 1 }
  else t

/-- cache.rs calculate_usage_data (lines 703-878): project stats for the
projects with entries, daily buckets, overall sums, model distribution,
today's stats, session timing and burn rate, and the final sort of projects
by descending last activity. -/
def calculate_usage_data (all_data : List (ProjectData × List UsageEntry)) (now tz : Int) :
    UsageData :=
  let nonempty := all_data.filter (fun pe => ¬ pe.2.isEmpty)
  let all_entries := nonempty.flatMap Prod.snd
  let projectsRaw := nonempty.map (fun pe => calculate_project_stats pe.1 pe.2)
  let daily_usage := calculate_daily_usage all_entries
  let o0 : OverallStats := {
    total_input_tokens := 0, total_output_tokens := 0, cache_creation_tokens := 0
    cache_read_tokens := 0, total_cost_usd := 0, total_messages := 0, total_sessions := 0
    project_count := projectsRaw.length, model_distribution := []
    session_start_time := none, time_to_reset_minutes := 0, burn_rate := none
    today_stats := initTodayStats }
  let o1 := projectsRaw.foldl overallStep o0
  let o2 := { o1 with
    total_cost_usd := round6 o1.total_cost_usd
    model_distribution := calculate_model_distribution all_entries }
  let today_local := localDate tz now
  let t0 := all_entries.foldl (todayStep tz today_local) initTodayStats
  let today := { t0 with
    total_tokens := t0.input_tokens + t0.output_tokens
    cost_usd := round6 t0.cost_usd }
  let o3 := { o2 with today_stats := today }
  let o4 :=
    if all_entries.isEmpty then { o3 with time_to_reset_minutes := 300 }
    else
      let window_start := now - 300 * 60
      let sorted_entries :=
        List.insertionSort (fun a b : UsageEntry => a.timestamp ≤ b.timestamp) all_entries
      let recents := sorted_entries.filter (fun e => window_start ≤ e.timestamp)
      if recents.isEmpty then { o3 with time_to_reset_minutes := 300 }
      else
        let first_entry_time := ((recents.map UsageEntry.timestamp).min?).getD 0
        let session_block_start := floorHour first_entry_time
        let blocks := transform_to_blocks sorted_entries now
        let br := calculate_hourly_burn_rate blocks now
        { o3 with
          session_start_time := some (to_rfc3339 session_block_start)
          time_to_reset_minutes := calculate_time_to_reset (some session_block_start) now
          burn_rate :=
            if 0 < br.1 then
              some { tokens_per_minute := round2 br.1, cost_per_hour := round4 br.2 }
            else none }
  let projects := List.insertionSort
    (fun a b : ProjectStats => (b.last_activity.getD "") ≤ (a.last_activity.getD "")) projectsRaw
  { projects := projects, daily_usage := daily_usage, overall_stats := o4 }

/-! ## Incremental cache manager (cache.rs)

The Instant-valued bookkeeping fields (last_full_refresh, last_dir_scan) and
the cached_usage_data convenience copy are wall-clock state not observable
through the claims; the directory-rescan throttle they drive is modelled by
the boolean rescan argument of the incremental load. -/

/-- cache.rs FileCacheEntry. -/
structure FileCacheEntry where
  mtime : Nat
  entries : List UsageEntry
deriving DecidableEq

/-- cache.rs CacheManager (registry plus cached project list). -/
structure CacheManager where
  file_cache : List (String × FileCacheEntry)
  cached_projects : List ProjectData
deriving DecidableEq

/-- cache.rs FileChanges. -/
structure FileChanges where
  modified : List String
  new_files : List String
  deleted : List String
deriving DecidableEq

/-- CacheManager::new / the state after clear(). -/
def CacheManager.empty : CacheManager := { file_cache := [], cached_projects := [] }

/-- cache.rs is_empty (line 68). -/
def CacheManager.is_empty (mgr : CacheManager) : Bool := mgr.file_cache.isEmpty

/-- cache.rs check_file_changes (lines 86-124).  A file listed a moment ago
but now missing is skipped (treated as possibly deleted); in the model file
metadata never fails once the file is found, so the treat-as-modified arm
for an unreadable mtime is unreachable.  The function's Result type never
carries an error in the source either; it is kept to mirror the signature. -/
def checkFileStep (d : Disk) (mgr : CacheManager) (ch : FileChanges) (file : String) :
    FileChanges :=
  match d.findFile file with
  | none => ch
  | some f =>
    match lookupA file mgr.file_cache with
    | some cached =>
        if cached.mtime < f.mtime then { ch with modified := ch.modified ++ [file] } else ch
    | none => { ch with new_files := ch.new_files ++ [file] }

def check_file_changes (d : Disk) (mgr : CacheManager) (current_files : List String) :
    Except ReaderError FileChanges :=
  let ch := current_files.foldl (checkFileStep d mgr)
    { modified := [], new_files := [], deleted := [] }
  let deleted := (keysA mgr.file_cache).filter (fun p => ¬ p ∈ current_files)
  .ok { ch with deleted := deleted }

/-- cache.rs update_file_cache (lines 127-142): record the file's current
mtime and its freshly parsed entries, replacing any prior record.  The
SystemTime::now() fallback for an unreadable mtime is unreachable in the
model and replaced by 0. -/
def update_file_cache (d : Disk) (mgr : CacheManager) (file : String)
    (entries : List UsageEntry) : CacheManager :=
  let mtime := ((d.findFile file).map SrcFile.mtime).getD 0
  { mgr with file_cache := insertA file { mtime := mtime, entries := entries } mgr.file_cache }

/-- cache.rs remove_file (lines 145-147). -/
def remove_file (mgr : CacheManager) (file : String) : CacheManager :=
  { mgr with file_cache := removeA file mgr.file_cache }

/-- cache.rs get_file_entries (lines 150-152). -/
def get_file_entries (mgr : CacheManager) (file : String) : Option (List UsageEntry) :=
  (lookupA file mgr.file_cache).map FileCacheEntry.entries

/-- cache.rs has_changes (lines 171-197): true on an empty registry,
false when listing projects or diffing files fails, otherwise whether any
modification, addition or deletion was detected. -/
def has_changes (d : Disk) (mgr : CacheManager) : Bool :=
  if mgr.is_empty then true
  else
    match list_projects d with
    | .error _ => false
    | .ok projects =>
      let all_files := projects.flatMap ProjectData.session_files
      match check_file_changes d mgr all_files with
      | .ok changes =>
          !changes.modified.isEmpty || !changes.new_files.isEmpty || !changes.deleted.isEmpty
      | .error _ => false

/-- cache.rs full_load (lines 338-389): clear the registry, list projects,
parse every file (a file that fails to read is logged and skipped),
populate the registry and the cached project list, and compute the usage
data. -/
def fullLoadFileStep (env : Env) (d : Disk) (acc2 : CacheManager × List UsageEntry)
    (file : String) : CacheManager × List UsageEntry :=
  match readFileOnDisk env d file with
  | .ok entries => (update_file_cache d acc2.1 file entries, acc2.2 ++ entries)
  | .error _ => acc2

def fullLoadProjStep (env : Env) (d : Disk)
    (acc : CacheManager × List (ProjectData × List UsageEntry)) (project : ProjectData) :
    CacheManager × List (ProjectData × List UsageEntry) :=
  let r := project.session_files.foldl (fullLoadFileStep env d) (acc.1, [])
  (r.1, acc.2 ++ [(project, r.2)])

def full_load (env : Env) (d : Disk) (now tz : Int) (_mgr : CacheManager) :
    Except ReaderError (CacheManager × UsageData) :=
  match list_projects d with
  | .error e => .error e
  | .ok projects =>
    let r := projects.foldl (fullLoadProjStep env d) (CacheManager.empty, [])
    .ok ({ r.1 with cached_projects := projects }, calculate_usage_data r.2 now tz)

/-- HashSet::insert modelled on a duplicate-free list. -/
def insertS (x : String) (l : List String) : List String :=
  if x ∈ l then l else l ++ [x]

/-- Attribute one changed file to the first project whose session-file list
contains it, collecting the project's decoded path
(cache.rs lines 250-258 and 260-267). -/
def attributeStep (projects : List ProjectData) (acc : List String) (file : String) :
    List String :=
  match projects.find? (fun pr => file ∈ pr.session_files) with
  | some pr => insertS pr.decoded_path acc
  | none => acc

/-- Re-read one changed file into the registry, skipping read failures
(cache.rs lines 272-281). -/
def readUpdateStep (env : Env) (d : Disk) (m : CacheManager) (file : String) : CacheManager :=
  match readFileOnDisk env d file with
  | .ok entries => update_file_cache d m file entries
  | .error _ => m

/-- Rebuild the per-project entry lists from the registry
(cache.rs lines 283-304). -/
def cacheAllData (mgr : CacheManager) (projects : List ProjectData) :
    List (ProjectData × List UsageEntry) :=
  projects.map (fun pr =>
    (pr, pr.session_files.flatMap (fun f => (get_file_entries mgr f).getD [])))

/-- cache.rs incremental_load_with_delta (lines 200-335).  rescan is the
should_rescan_dirs() decision (a wall-clock throttle); both branches list
the current projects, the rescan branch additionally replaces the cached
project list. -/
def incremental_load_with_delta (env : Env) (d : Disk) (now tz : Int) (rescan : Bool)
    (mgr : CacheManager) : Except ReaderError (CacheManager × UsageData × UsageDataDelta) :=
  if mgr.is_empty then
    match full_load env d now tz mgr with
    | .error e => .error e
    | .ok (mgr', data) =>
      .ok (mgr', data,
        { has_changes := true, full_refresh := true, updated_projects := data.projects
          overall_stats := some data.overall_stats, daily_usage := some data.daily_usage })
  else
    match list_projects d with
    | .error e => .error e
    | .ok projects =>
      let mgr1 := if rescan then { mgr with cached_projects := projects } else mgr
      let all_files := projects.flatMap ProjectData.session_files
      match check_file_changes d mgr1 all_files with
      | .error e => .error e
      | .ok changes =>
        let changed0 := (changes.modified ++ changes.new_files).foldl
          (attributeStep projects) []
        let changed_paths := changes.deleted.foldl
          (attributeStep mgr1.cached_projects) changed0
        let mgr2 := changes.deleted.foldl remove_file mgr1
        let mgr3 := (changes.modified ++ changes.new_files).foldl (readUpdateStep env d) mgr2
        let data := calculate_usage_data (cacheAllData mgr3 projects) now tz
        let updated_projects := data.projects.filter
          (fun p => p.project_path ∈ changed_paths)
        let hc := !updated_projects.isEmpty
        .ok (mgr3, data,
          { has_changes := hc, full_refresh := false, updated_projects := updated_projects
            overall_stats := if hc then some data.overall_stats else none
            daily_usage := if hc then some data.daily_usage else none })

/-! ## Claims -/

/-- Bridge: truncating division of non-negative integers is Nat division. -/
theorem tdiv_ofNat (m n : Nat) : Int.tdiv (m : Int) (n : Int) = ((m / n : Nat) : Int) := rfl

/-- Bridge: truncating remainder of non-negative integers is Nat remainder. -/
theorem tmod_ofNat (m n : Nat) : Int.tmod (m : Int) (n : Int) = ((m % n : Nat) : Int) := rfl

/-- C7: for every session start at or before now, calculate_time_to_reset
returns a value in [0, 300] equal to 300 minus (elapsed whole minutes mod
300); with no session start it returns exactly 300, and with a negative
elapsed-minutes value (clock skew) it returns exactly 300. -/
theorem c7_time_to_reset (start now : Int) (h : start ≤ now) :
    (0 ≤ calculate_time_to_reset (some start) now
      ∧ calculate_time_to_reset (some start) now ≤ 300)
    ∧ calculate_time_to_reset (some start) now
        = 300 - Int.tmod (Int.tdiv (now - start) 60) 300
    ∧ calculate_time_to_reset none now = 300
    ∧ (∀ s n : Int, Int.tdiv (n - s) 60 < 0 → calculate_time_to_reset (some s) n = 300) := by
  obtain ⟨k, hk⟩ := Int.eq_ofNat_of_zero_le (a := now - start) (by omega)
  have helapsed : Int.tdiv (now - start) 60 = ((k / 60 : Nat) : Int) := by
    rw [hk]; rfl
  have hnotneg : ¬ Int.tdiv (now - start) 60 < 0 := by
    rw [helapsed]
    omega
  have hmod300 : Int.tmod (Int.tdiv (now - start) 60) 300 = ((k / 60 % 300 : Nat) : Int) := by
    rw [helapsed]; rfl
  have hval : calculate_time_to_reset (some start) now
      = 300 - Int.tmod (Int.tdiv (now - start) 60) 300 := by
    rw [calculate_time_to_reset]
    simp only [hnotneg, if_false]
    rw [hmod300]
    have : (k / 60 % 300 : Nat) < 300 := Nat.mod_lt _ (by omega)
    omega
  refine ⟨?_, hval, rfl, ?_⟩
  · rw [hval, hmod300]
    have h1 : (k / 60 % 300 : Nat) < 300 := Nat.mod_lt _ (by omega)
    omega
  · intro s n hneg
    rw [calculate_time_to_reset]
    simp only [hneg, if_true]

/-- Witness for C7 at start = 0, now = 120 seconds: the reset countdown is
298 minutes (= 300 - (2 mod 300)), within the required bounds. -/
theorem c7_time_to_reset_witness :
    (0 ≤ calculate_time_to_reset (some 0) 120
      ∧ calculate_time_to_reset (some 0) 120 ≤ 300)
    ∧ calculate_time_to_reset (some 0) 120 = 300 - Int.tmod (Int.tdiv (120 - 0) 60) 300
    ∧ calculate_time_to_reset none 120 = 300
    ∧ (∀ s n : Int, Int.tdiv (n - s) 60 < 0 → calculate_time_to_reset (some s) n = 300) :=
  c7_time_to_reset 0 120 (by decide)

/-- C4: token extraction consults the two usage blocks in an order
determined by the event kind (nested message usage before top-level usage
for an "assistant" event, top-level before nested otherwise), takes the
first block in that order with a positive input or output count, and
produces no entry at all (process_event is also none) when neither block has
a positive input or output count. -/
theorem c4_extract_priority (ev : SessionEvent) :
    (ev.event_type = some "assistant" →
        (∀ u, ev.message.bind Message.usage = some u → has_tokens u = true →
            extract_tokens_and_model ev = some (u, extract_model ev))
      ∧ ((∀ u, ev.message.bind Message.usage = some u → has_tokens u = false) →
          ∀ u, ev.usage = some u → has_tokens u = true →
            extract_tokens_and_model ev = some (u, extract_model ev)))
    ∧ (ev.event_type ≠ some "assistant" →
        (∀ u, ev.usage = some u → has_tokens u = true →
            extract_tokens_and_model ev = some (u, extract_model ev))
      ∧ ((∀ u, ev.usage = some u → has_tokens u = false) →
          ∀ u, ev.message.bind Message.usage = some u → has_tokens u = true →
            extract_tokens_and_model ev = some (u, extract_model ev)))
    ∧ ((∀ u, ev.usage = some u → has_tokens u = false) →
       (∀ u, ev.message.bind Message.usage = some u → has_tokens u = false) →
        extract_tokens_and_model ev = none ∧ ∀ env, process_event env ev = none) := by
  refine ⟨?_, ?_, ?_⟩
  · intro ha
    constructor
    · intro u hu htok
      simp [extract_tokens_and_model, ha, hu, firstWithTokens, htok]
    · intro hnest u hu htok
      cases hm : ev.message.bind Message.usage with
      | none => simp [extract_tokens_and_model, ha, hm, hu, firstWithTokens, htok]
      | some v =>
        have := hnest v hm
        simp [extract_tokens_and_model, ha, hm, hu, firstWithTokens, this, htok]
  · intro ha
    constructor
    · intro u hu htok
      simp [extract_tokens_and_model, ha, hu, firstWithTokens, htok]
    · intro htop u hu htok
      cases hm : ev.usage with
      | none => simp [extract_tokens_and_model, ha, hm, hu, firstWithTokens, htok]
      | some v =>
        have := htop v hm
        simp [extract_tokens_and_model, ha, hm, hu, firstWithTokens, this, htok]
  · intro htop hnest
    have hext : extract_tokens_and_model ev = none := by
      have h1 : firstWithTokens [ev.message.bind Message.usage, ev.usage] = none := by
        cases hm : ev.message.bind Message.usage with
        | none =>
          cases hu : ev.usage with
          | none => simp [firstWithTokens]
          | some v => simp [firstWithTokens, htop v hu]
        | some w =>
          cases hu : ev.usage with
          | none => simp [firstWithTokens, hnest w hm]
          | some v => simp [firstWithTokens, hnest w hm, htop v hu]
      have h2 : firstWithTokens [ev.usage, ev.message.bind Message.usage] = none := by
        cases hm : ev.message.bind Message.usage with
        | none =>
          cases hu : ev.usage with
          | none => simp [firstWithTokens]
          | some v => simp [firstWithTokens, htop v hu]
        | some w =>
          cases hu : ev.usage with
          | none => simp [firstWithTokens, hnest w hm]
          | some v => simp [firstWithTokens, hnest w hm, htop v hu]
      by_cases ha : ev.event_type = some "assistant" <;>
        simp [extract_tokens_and_model, ha, h1, h2]
    refine ⟨hext, fun env => ?_⟩
    rw [process_event]
    cases ev.timestamp with
    | none => rfl
    | some ts =>
      cases env.parse_timestamp ts <;> simp [hext]

/-- Witness for C4: a concrete assistant event whose nested usage block has
positive tokens wins over the top-level block. -/
theorem c4_extract_priority_witness :
    extract_tokens_and_model
      { event_type := some "assistant"
        message := some { id := none, model := some "m"
                          usage := some { input_tokens := some 3, output_tokens := some 0
                                          cache_creation_tokens := none
                                          cache_read_tokens := none } }
        timestamp := some "t", cost := none
        usage := some { input_tokens := some 7, output_tokens := some 7
                        cache_creation_tokens := none, cache_read_tokens := none }
        message_id := none, request_id := none }
      = some ({ input_tokens := some 3, output_tokens := some 0
                cache_creation_tokens := none, cache_read_tokens := none }, "m") :=
  ((c4_extract_priority _).1 (by decide)).1 _ (by decide) (by decide)

/-- The winning usage source of extract_tokens_and_model always has a
positive input or output count. -/
theorem firstWithTokens_has (l : List (Option Usage)) (u : Usage)
    (h : firstWithTokens l = some u) : has_tokens u = true := by
  induction l with
  | nil => simp [firstWithTokens] at h
  | cons hd tl ih =>
    cases hd with
    | none => exact ih (by simpa [firstWithTokens] using h)
    | some v =>
      rw [firstWithTokens] at h
      by_cases hv : has_tokens v
      · rw [if_pos hv] at h
        cases h
        exact hv
      · rw [if_neg hv] at h
        exact ih h

theorem extract_some_has_tokens (ev : SessionEvent) (u : Usage) (m : String)
    (h : extract_tokens_and_model ev = some (u, m)) : has_tokens u = true := by
  rw [extract_tokens_and_model] at h
  generalize (if ev.event_type = some "assistant" then
      [ev.message.bind Message.usage, ev.usage]
    else [ev.usage, ev.message.bind Message.usage]) = l at h
  cases hf : firstWithTokens l with
  | none => rw [hf] at h; cases h
  | some w =>
    rw [hf] at h
    simp only [Option.map_some'] at h
    have hw : w = u := congrArg Prod.fst (Option.some.inj h)
    rw [← hw]
    exact firstWithTokens_has l w hf

/-- C9: every UsageEntry produced by process_event has a positive total of
input and output tokens, and each of its four token fields is the winning
usage source's field with an absent count stored as 0. -/
theorem c9_entry_invariant (env : Env) (ev : SessionEvent) (e : UsageEntry)
    (h : process_event env ev = some e) :
    0 < e.input_tokens + e.output_tokens
    ∧ ∃ u m, extract_tokens_and_model ev = some (u, m)
        ∧ e.input_tokens = u.input_tokens.getD 0
        ∧ e.output_tokens = u.output_tokens.getD 0
        ∧ e.cache_creation_tokens = u.cache_creation_tokens.getD 0
        ∧ e.cache_read_tokens = u.cache_read_tokens.getD 0
        ∧ e.model = m := by
  rw [process_event] at h
  cases hts : ev.timestamp with
  | none => rw [hts] at h; cases h
  | some ts =>
    rw [hts] at h
    simp only [Option.bind_eq_bind, Option.some_bind'] at h
    cases hp : env.parse_timestamp ts with
    | none => rw [hp] at h; cases h
    | some t =>
      rw [hp] at h
      simp only [Option.some_bind'] at h
      cases hext : extract_tokens_and_model ev with
      | none => rw [hext] at h; cases h
      | some um =>
        obtain ⟨u, m⟩ := um
        rw [hext] at h
        simp only [Option.some_bind'] at h
        have he := (Option.some.inj h).symm
        have htok := extract_some_has_tokens ev u m hext
        simp only [has_tokens, Bool.or_eq_true, decide_eq_true_eq] at htok
        subst he
        refine ⟨?_, u, m, rfl, rfl, rfl, rfl, rfl, rfl⟩
        dsimp only
        rcases htok with h2 | h2 <;> omega

/-- Witness for C9: the parsed entry of a concrete event has positive
input+output and zero cache counts copied from the absent fields of its
winning usage source. -/
theorem c9_entry_invariant_witness :
    ∃ e, process_event
        { calculate_cost := fun _ _ _ _ _ => 0, parse_timestamp := fun _ => some 0 }
        { event_type := none
          message := none
          timestamp := some "t", cost := some 1
          usage := some { input_tokens := some 5, output_tokens := none
                          cache_creation_tokens := none, cache_read_tokens := none }
          message_id := none, request_id := none } = some e
      ∧ (0 < e.input_tokens + e.output_tokens
        ∧ ∃ u m, extract_tokens_and_model
            { event_type := none
              message := none
              timestamp := some "t", cost := some 1
              usage := some { input_tokens := some 5, output_tokens := none
                              cache_creation_tokens := none, cache_read_tokens := none }
              message_id := none, request_id := none } = some (u, m)
            ∧ e.input_tokens = u.input_tokens.getD 0
            ∧ e.output_tokens = u.output_tokens.getD 0
            ∧ e.cache_creation_tokens = u.cache_creation_tokens.getD 0
            ∧ e.cache_read_tokens = u.cache_read_tokens.getD 0
            ∧ e.model = m) :=
  ⟨{ timestamp := 0, input_tokens := 5, output_tokens := 0, cache_creation_tokens := 0
     cache_read_tokens := 0, cost_usd := 1, model := "claude-3-5-sonnet"
     message_id := "", request_id := "unknown" },
   by decide,
   c9_entry_invariant
     { calculate_cost := fun _ _ _ _ _ => 0, parse_timestamp := fun _ => some 0 }
     { event_type := none
       message := none
       timestamp := some "t", cost := some 1
       usage := some { input_tokens := some 5, output_tokens := none
                       cache_creation_tokens := none, cache_read_tokens := none }
       message_id := none, request_id := none }
     { timestamp := 0, input_tokens := 5, output_tokens := 0, cache_creation_tokens := 0
       cache_read_tokens := 0, cost_usd := 1, model := "claude-3-5-sonnet"
       message_id := "", request_id := "unknown" }
     (by decide)⟩

/-- Modelled from the spec for comparison (claim C5 / spec 4.1: "Message id
resolves from (in order): a message-level id, then a top-level field"):
the message-id resolution order the claim asserts, nested id first. -/
def spec_message_id (ev : SessionEvent) : String :=
  ((ev.message.bind Message.id) <|> ev.message_id).getD ""

/-- A pricing/timestamp environment for concrete evaluations: zero cost,
every timestamp string parses to instant 0. -/
def envZ : Env :=
  { calculate_cost := fun _ _ _ _ _ => 0, parse_timestamp := fun _ => some 0 }

/-- A concrete event carrying both a top-level message_id ("top") and a
nested message-level id ("nested"). -/
def c5Event : SessionEvent :=
  { event_type := none
    message := some { id := some "nested", model := none
                      usage := some { input_tokens := some 1, output_tokens := none
                                      cache_creation_tokens := none
                                      cache_read_tokens := none } }
    timestamp := some "t", cost := some 0
    usage := none
    message_id := some "top", request_id := none }

/-- The entry process_event produces for c5Event under envZ. -/
def c5Entry : UsageEntry :=
  { timestamp := 0, input_tokens := 1, output_tokens := 0, cache_creation_tokens := 0
    cache_read_tokens := 0, cost_usd := 0, model := "claude-3-5-sonnet"
    message_id := "top", request_id := "unknown" }

/-- Counterexample to C5 as stated: for an event carrying both a top-level
message_id "top" and a nested message-level id "nested", process_event
stores "top" (the top-level field wins), while the claim's message-level
priority would give "nested". -/
theorem c5_counterexample :
    process_event envZ c5Event = some c5Entry
    ∧ c5Entry.message_id = "top"
    ∧ spec_message_id c5Event = "nested"
    ∧ "top" ≠ "nested" :=
  ⟨by decide, by decide, by decide, by decide⟩

/-- C5 amended: for every raw event yielding a UsageEntry, the entry's
message id equals the TOP-LEVEL message_id field when present and otherwise
the nested message-level id (top-level takes priority), defaulting to the
empty string; the request id equals the top-level request_id field, or the
sentinel "unknown" when absent. -/
theorem c5_id_resolution (env : Env) (ev : SessionEvent) (e : UsageEntry)
    (h : process_event env ev = some e) :
    e.message_id = (ev.message_id <|> (ev.message.bind Message.id)).getD ""
    ∧ e.request_id = ev.request_id.getD "unknown" := by
  rw [process_event] at h
  cases hts : ev.timestamp with
  | none => rw [hts] at h; cases h
  | some ts =>
    rw [hts] at h
    simp only [Option.bind_eq_bind, Option.some_bind'] at h
    cases hp : env.parse_timestamp ts with
    | none => rw [hp] at h; cases h
    | some t =>
      rw [hp] at h
      simp only [Option.some_bind'] at h
      cases hext : extract_tokens_and_model ev with
      | none => rw [hext] at h; cases h
      | some um =>
        obtain ⟨u, m⟩ := um
        rw [hext] at h
        simp only [Option.some_bind'] at h
        have he := (Option.some.inj h).symm
        subst he
        exact ⟨rfl, rfl⟩

/-- Witness for the amended C5 at the concrete event: the stored message id
is the top-level "top" and the stored request id is the sentinel. -/
theorem c5_id_resolution_witness :
    c5Entry.message_id = (c5Event.message_id <|> (c5Event.message.bind Message.id)).getD ""
    ∧ c5Entry.request_id = c5Event.request_id.getD "unknown" :=
  c5_id_resolution envZ c5Event c5Entry (by decide)

/-- A concrete entry with a given model name and input-token count. -/
def mkModelEntry (model : String) (tok : Nat) : UsageEntry :=
  { timestamp := 0, input_tokens := tok, output_tokens := 0, cache_creation_tokens := 0
    cache_read_tokens := 0, cost_usd := 0, model := model
    message_id := "", request_id := "unknown" }

/-- C8: "claude-3-5-sonnet-20240620" and "Claude 3.5 Sonnet" normalize to
the same bucket key and fold into a single ModelStats bucket, while the
4th-generation name "claude-sonnet-4-20250101" is kept verbatim
(lower-cased) as its own bucket, distinct from legacy "claude-3-sonnet". -/
theorem c8_model_grouping :
    normalize_model_name "claude-3-5-sonnet-20240620" = "claude-3-5-sonnet"
    ∧ normalize_model_name "Claude 3.5 Sonnet" = "claude-3-5-sonnet"
    ∧ normalize_model_name "claude-sonnet-4-20250101" = "claude-sonnet-4-20250101"
    ∧ normalize_model_name "claude-sonnet-4-20250101" ≠ "claude-3-sonnet"
    ∧ (calculate_model_distribution
        [mkModelEntry "claude-3-5-sonnet-20240620" 1,
         mkModelEntry "Claude 3.5 Sonnet" 1]).map ModelStats.model
        = ["claude-3-5-sonnet"]
    ∧ (calculate_model_distribution
        [mkModelEntry "claude-3-5-sonnet-20240620" 1,
         mkModelEntry "Claude 3.5 Sonnet" 1]).map ModelStats.message_count = [2]
    ∧ (calculate_model_distribution
        [mkModelEntry "claude-3-5-sonnet-20240620" 1,
         mkModelEntry "Claude 3.5 Sonnet" 1,
         mkModelEntry "claude-sonnet-4-20250101" 5]).map ModelStats.model
        = ["claude-sonnet-4-20250101", "claude-3-5-sonnet"] :=
  ⟨by decide, by decide, by decide, by decide, by decide, by decide, by decide⟩

/-! ### C3: burn-rate characterization -/

/-- The effective end of a block: now when active, last entry time
otherwise. -/
def blockEffEnd (current_time : Int) (b : SessionBlock) : Int :=
  if b.is_active then current_time else b.actual_end_time

/-- Start of the block's overlap with the trailing hour:
max(block start, now - 1h). -/
def blockStartInHour (current_time : Int) (b : SessionBlock) : Int :=
  if current_time - 3600 < b.start_time then b.start_time else current_time - 3600

/-- End of the block's overlap with the trailing hour:
min(effective end, now). -/
def blockEndInHour (current_time : Int) (b : SessionBlock) : Int :=
  if blockEffEnd current_time b < current_time then blockEffEnd current_time b else current_time

/-- The overlap (in seconds) of [block start, effective end] with the
trailing one-hour window [now - 1h, now]. -/
def blockOverlap (current_time : Int) (b : SessionBlock) : Int :=
  blockEndInHour current_time b - blockStartInHour current_time b

/-- Sanity: blockStartInHour is the maximum, blockEndInHour the minimum,
of the window bounds they clamp to. -/
theorem blockBounds_minmax (current_time : Int) (b : SessionBlock) :
    blockStartInHour current_time b = max b.start_time (current_time - 3600)
    ∧ blockEndInHour current_time b = min (blockEffEnd current_time b) current_time := by
  constructor
  · rw [blockStartInHour]
    rcases le_or_lt b.start_time (current_time - 3600) with h | h
    · rw [if_neg (by omega), max_eq_right h]
    · rw [if_pos h, max_eq_left (by omega)]
  · rw [blockEndInHour]
    rcases le_or_lt current_time (blockEffEnd current_time b) with h | h
    · rw [if_neg (by omega), min_eq_right h]
    · rw [if_pos h, min_eq_left (by omega)]

/-- A block qualifies for the burn rate when its effective end is at or
after now minus one hour and its overlap with the window is positive. -/
def blockQualifies (current_time : Int) (b : SessionBlock) : Bool :=
  decide (current_time - 3600 ≤ blockEffEnd current_time b)
    && decide (0 < blockOverlap current_time b)

/-- A qualifying block's token contribution:
block_total * (overlap_minutes / total_block_duration_minutes). -/
def blockTokenShare (current_time : Int) (b : SessionBlock) : ℚ :=
  (b.total_tokens : ℚ) *
    (((blockOverlap current_time b : Int) : ℚ) / 60 /
      (((blockEffEnd current_time b - b.start_time : Int) : ℚ) / 60))

/-- A qualifying block's proportional cost contribution. -/
def blockCostShare (current_time : Int) (b : SessionBlock) : ℚ :=
  b.total_cost *
    (((blockOverlap current_time b : Int) : ℚ) / 60 /
      (((blockEffEnd current_time b - b.start_time : Int) : ℚ) / 60))

theorem burnStep_eq (now : Int) (acc : ℚ × ℚ) (b : SessionBlock) :
    burnStep now acc b =
      if blockQualifies now b then
        (acc.1 + blockTokenShare now b, acc.2 + blockCostShare now b)
      else acc := by
  rw [burnStep, blockQualifies, blockTokenShare, blockCostShare, blockOverlap,
    blockEndInHour, blockStartInHour, blockEffEnd]
  dsimp only
  set E := (if b.is_active = true then now else b.actual_end_time) with hE
  set S := (if now - 3600 < b.start_time then b.start_time else now - 3600) with hS
  set P := (if E < now then E else now) with hP
  have hPE : P ≤ E ∧ P ≤ now := by rw [hP]; split <;> omega
  have hSb : b.start_time ≤ S := by rw [hS]; split <;> omega
  by_cases h1 : E < now - 3600
  · rw [if_pos h1]
    have h2 : ¬ (now - 3600 ≤ E) := by omega
    simp [h2]
  · rw [if_neg h1]
    have hle : now - 3600 ≤ E := by omega
    by_cases h2 : P ≤ S
    · rw [if_pos h2]
      have h3 : ¬ (0 : Int) < P - S := by omega
      simp [h3]
    · rw [if_neg h2]
      have hdurpos : (0 : ℚ) < ((E - b.start_time : Int) : ℚ) / 60 := by
        apply div_pos _ (by norm_num)
        have : (0 : Int) < E - b.start_time := by omega
        exact_mod_cast this
      rw [if_pos hdurpos]
      have h3 : (0 : Int) < P - S := by omega
      simp [hle, h3]

theorem foldl_burnStep (now : Int) (blocks : List SessionBlock) (acc : ℚ × ℚ) :
    blocks.foldl (burnStep now) acc =
      (acc.1 + ((blocks.filter (blockQualifies now)).map (blockTokenShare now)).sum,
       acc.2 + ((blocks.filter (blockQualifies now)).map (blockCostShare now)).sum) := by
  induction blocks generalizing acc with
  | nil => simp
  | cons b rest ih =>
    rw [List.foldl_cons, burnStep_eq, ih]
    by_cases hq : blockQualifies now b
    · simp only [List.filter_cons, hq, if_pos]
      simp [List.sum_cons]
      constructor <;> ring
    · simp only [List.filter_cons]
      simp [hq]

/-- C3: the burn rate sums, over exactly the blocks whose effective end is
at or after now minus one hour and whose overlap with [now - 1h, now] is
positive, block_total * (overlap_minutes / total_block_duration_minutes)
for tokens and proportionally for cost; it returns tokens-per-minute = that
token sum divided by 60 and cost-per-hour = the proportional cost sum
scaled to an hourly rate (divided by 60 minutes and re-multiplied by 60),
and returns (0, 0) whenever the qualifying-token sum is zero, in particular
whenever no block qualifies. -/
theorem c3_burn_rate (blocks : List SessionBlock) (now : Int) :
    calculate_hourly_burn_rate blocks now =
      (let qs := blocks.filter (blockQualifies now)
       let t : ℚ := (qs.map (blockTokenShare now)).sum
       let c : ℚ := (qs.map (blockCostShare now)).sum
       if 0 < t then (t / 60, c / 60 * 60) else (0, 0)) := by
  rw [calculate_hourly_burn_rate]
  by_cases he : blocks.isEmpty
  · have : blocks = [] := List.isEmpty_iff.mp he
    subst this
    simp
  · rw [if_neg he, foldl_burnStep]
    simp

/-- C10: the lightweight change check returns true whenever the file cache
registry is empty (initial load pending); it returns false, not an error,
whenever listing the project directories fails (in particular whenever the
projects root is missing); and the per-file change diff never fails, so the
diff-failure-to-false arm can never surface an error either. -/
theorem c10_has_changes (d : Disk) (mgr : CacheManager) :
    (mgr.file_cache.isEmpty = true → has_changes d mgr = true)
    ∧ (∀ e, list_projects d = .error e → mgr.file_cache.isEmpty = false →
        has_changes d mgr = false)
    ∧ (d.root_exists = false → mgr.file_cache.isEmpty = false →
        has_changes d mgr = false)
    ∧ (∀ files, ∃ ch, check_file_changes d mgr files = .ok ch) := by
  have herr : d.root_exists = false → list_projects d = .error (.dirNotFound "projects") := by
    intro h
    rw [list_projects, h]
    rfl
  refine ⟨?_, ?_, ?_, ?_⟩
  · intro h
    rw [has_changes, CacheManager.is_empty, h, if_pos rfl]
  · intro e he hne
    rw [has_changes, CacheManager.is_empty, hne]
    simp only [Bool.false_eq_true, if_false]
    rw [he]
  · intro hroot hne
    rw [has_changes, CacheManager.is_empty, hne]
    simp only [Bool.false_eq_true, if_false]
    rw [herr hroot]
  · intro files
    exact ⟨_, rfl⟩

/-- Witness for C10: a cache holding one file record combined with a disk
whose projects root is missing yields has_changes = false, and an empty
cache yields true. -/
theorem c10_has_changes_witness :
    has_changes { root_exists := false, dirs := [] }
      { file_cache := [("p", { mtime := 0, entries := [] })], cached_projects := [] } = false
    ∧ has_changes { root_exists := false, dirs := [] }
      { file_cache := [], cached_projects := [] } = true :=
  ⟨(c10_has_changes { root_exists := false, dirs := [] }
      { file_cache := [("p", { mtime := 0, entries := [] })], cached_projects := [] }).2.2.1
      rfl rfl,
   (c10_has_changes { root_exists := false, dirs := [] }
      { file_cache := [], cached_projects := [] }).1 rfl⟩

/-! ### C2: deduplication within one file -/

/-- The (key, entry) insertion a single enumerated line performs, if any
(the body of read_jsonl_file's loop). -/
def lineInsert (env : Env) (p : Nat × SourceLine) : Option (String × UsageEntry) :=
  match p.2 with
  | none => none
  | some event =>
    match process_event env event with
    | none => none
    | some entry =>
      match get_dedup_key event with
      | some key => some (key, entry)
      | none => some (no_dedup_key p.1 entry.timestamp, entry)

/-- The insertion sequence of a file: one (key, entry) pair per line that
yields an entry, in file order. -/
def insertionSeq (env : Env) (lines : List SourceLine) : List (String × UsageEntry) :=
  lines.enum.filterMap (lineInsert env)

/-- The entries produced by events whose dedup key is k, in file order. -/
def keyedEntries (env : Env) (lines : List SourceLine) (k : String) : List UsageEntry :=
  lines.filterMap (fun ol => ol.bind (fun ev =>
    if get_dedup_key ev = some k then process_event env ev else none))

/-- The value attached to the last occurrence of a key in a pair sequence,
with a default. -/
def lastVal {β : Type} (k : String) (ps : List (String × β)) (dflt : Option β) : Option β :=
  ps.foldl (fun acc p => if p.1 = k then some p.2 else acc) dflt

theorem foldl_insertA_lookup {β : Type} (k : String) (ps : List (String × β))
    (acc : List (String × β)) :
    lookupA k (ps.foldl (fun m p => insertA p.1 p.2 m) acc) = lastVal k ps (lookupA k acc) := by
  induction ps generalizing acc with
  | nil => simp [lastVal]
  | cons hd tl ih =>
    rw [List.foldl_cons, ih]
    rw [show lastVal k (hd :: tl) (lookupA k acc)
        = lastVal k tl (if hd.1 = k then some hd.2 else lookupA k acc) from rfl]
    by_cases h : hd.1 = k
    · rw [if_pos h, ← h, lookupA_insertA_self]
    · rw [if_neg h, lookupA_insertA_ne _ _ (fun hh => h hh.symm)]

theorem foldl_choice_getLast? {β : Type} (l : List β) (d : Option β) :
    l.foldl (fun _ x => some x) d = (l.getLast?).or d := by
  induction l using List.reverseRecOn with
  | nil => simp
  | append_singleton xs x ih => rw [List.foldl_append]; simp [List.getLast?_concat]

theorem lastVal_eq_foldl_choice {β : Type} (k : String) (ps : List (String × β))
    (d : Option β) :
    lastVal k ps d = ((ps.filter (fun p => p.1 = k)).map Prod.snd).foldl (fun _ x => some x) d := by
  induction ps generalizing d with
  | nil => simp [lastVal]
  | cons hd tl ih =>
    rw [show lastVal k (hd :: tl) d = lastVal k tl (if hd.1 = k then some hd.2 else d) from rfl]
    rw [List.filter_cons]
    by_cases h : hd.1 = k
    · simp only [h, decide_True, if_true, List.map_cons, List.foldl_cons]
      exact ih _
    · simp only [h, decide_False, if_false]
      exact ih _

theorem lastVal_eq_getLast? {β : Type} (k : String) (ps : List (String × β)) :
    lastVal k ps none = ((ps.filter (fun p => p.1 = k)).map Prod.snd).getLast? := by
  rw [lastVal_eq_foldl_choice, foldl_choice_getLast?, Option.or_none]

/-- One loop iteration of read_jsonl_file is: perform the line's insertion,
if any. -/
theorem readLineStep_eq (env : Env) (acc : List (String × UsageEntry))
    (p : Nat × SourceLine) :
    readLineStep env acc p = match lineInsert env p with
      | none => acc
      | some q => insertA q.1 q.2 acc := by
  obtain ⟨n, ol⟩ := p
  cases ol with
  | none => rfl
  | some ev =>
    have hL : readLineStep env acc (n, some ev)
        = match process_event env ev with
          | none => acc
          | some entry =>
            match get_dedup_key ev with
            | some key => insertA key entry acc
            | none => insertA (no_dedup_key n entry.timestamp) entry acc := rfl
    have hR : lineInsert env (n, some ev)
        = match process_event env ev with
          | none => none
          | some entry =>
            match get_dedup_key ev with
            | some key => some (key, entry)
            | none => some (no_dedup_key n entry.timestamp, entry) := rfl
    rw [hL, hR]
    cases process_event env ev with
    | none => rfl
    | some entry =>
      cases get_dedup_key ev with
      | some key => rfl
      | none => rfl

/-- read_jsonl_map is the fold of plain insertions of the insertion
sequence. -/
theorem read_jsonl_map_eq_foldl (env : Env) (lines : List SourceLine) :
    read_jsonl_map env lines
      = (insertionSeq env lines).foldl (fun m p => insertA p.1 p.2 m) [] := by
  rw [read_jsonl_map, insertionSeq]
  generalize lines.enum = el
  suffices h : ∀ (acc : List (String × UsageEntry)),
      el.foldl (readLineStep env) acc
        = (el.filterMap (lineInsert env)).foldl (fun m p => insertA p.1 p.2 m) acc from h []
  induction el with
  | nil => intro acc; rfl
  | cons hd tl ih =>
    intro acc
    rw [List.foldl_cons, List.filterMap_cons, readLineStep_eq]
    cases h : lineInsert env hd with
    | none =>
      dsimp only
      exact ih acc
    | some q =>
      dsimp only
      rw [List.foldl_cons]
      exact ih _

/-- The synthetic keys contain no colon, while every composite dedup key
contains one; they can therefore never collide. -/
theorem no_colon_no_dedup_key (i : Nat) (ts : Int) : Char.ofNat 58 ∉ (no_dedup_key i ts).data := by
  rw [no_dedup_key]
  intro hmem
  simp only [String.data_append] at hmem
  rcases List.mem_append.mp hmem with h | h
  · rcases List.mem_append.mp h with h2 | h2
    · rcases List.mem_append.mp h2 with h3 | h3
      · revert h3; decide
      · have := natStr_chars_digit i _ h3
        revert this; decide
    · revert h2; decide
  · rcases intStr_chars ts _ h with h2 | h2
    · revert h2; decide
    · revert h2; decide

/-- Every composite dedup key contains a colon. -/
theorem colon_mem_dedup_key (ev : SessionEvent) (k : String)
    (h : get_dedup_key ev = some k) : Char.ofNat 58 ∈ k.data := by
  rw [get_dedup_key] at h
  cases hm : (ev.message.bind Message.id) <|> ev.message_id with
  | none => rw [hm] at h; cases h
  | some mid =>
    cases hr : ev.request_id <|> ev.request_id with
    | none => rw [hm, hr] at h; cases h
    | some rid =>
      rw [hm, hr] at h
      have hk : k = mid ++ ":" ++ rid := (Option.some.inj h).symm
      subst hk
      simp only [String.data_append]
      refine List.mem_append.mpr (Or.inl (List.mem_append.mpr (Or.inr ?_)))
      decide

/-- Splitting two separator-joined strings at a separator absent from both
left parts. -/
theorem sep_split (sep : Char) : ∀ (a b x y : List Char),
    sep ∉ a → sep ∉ b → a ++ sep :: x = b ++ sep :: y → a = b ∧ x = y := by
  intro a
  induction a with
  | nil =>
    intro b x y _ hb h
    cases b with
    | nil =>
      simp only [List.nil_append, List.cons.injEq] at h
      exact ⟨rfl, h.2⟩
    | cons d b' =>
      simp only [List.nil_append, List.cons_append, List.cons.injEq] at h
      refine absurd ?_ hb
      rw [h.1]
      exact List.mem_cons_self d b'
  | cons c a' ih =>
    intro b x y ha hb h
    cases b with
    | nil =>
      simp only [List.cons_append, List.nil_append, List.cons.injEq] at h
      refine absurd ?_ ha
      rw [← h.1]
      exact List.mem_cons_self c a'
    | cons d b' =>
      simp only [List.cons_append, List.cons.injEq] at h
      obtain ⟨rfl, h2⟩ := h
      have hrec := ih b' x y (fun hm => ha (List.mem_cons_of_mem _ hm))
        (fun hm => hb (List.mem_cons_of_mem _ hm)) h2
      exact ⟨by rw [hrec.1], hrec.2⟩

/-- Synthetic keys are injective in (line number, timestamp). -/
theorem no_dedup_key_inj {i j : Nat} {ts ts' : Int}
    (h : no_dedup_key i ts = no_dedup_key j ts') : i = j ∧ ts = ts' := by
  have hd := congrArg String.data h
  rw [no_dedup_key, no_dedup_key] at hd
  simp only [String.data_append, List.append_assoc] at hd
  have hd2 := List.append_cancel_left hd
  have hsep : ("_".data : List Char) ++ (intStr ts).data
      = Char.ofNat 95 :: (intStr ts).data := rfl
  have hsep2 : ("_".data : List Char) ++ (intStr ts').data
      = Char.ofNat 95 :: (intStr ts').data := rfl
  rw [hsep, hsep2] at hd2
  have hna : Char.ofNat 95 ∉ (natStr i).data := by
    intro hm
    have := natStr_chars_digit i _ hm
    revert this; decide
  have hnb : Char.ofNat 95 ∉ (natStr j).data := by
    intro hm
    have := natStr_chars_digit j _ hm
    revert this; decide
  obtain ⟨h1, h2⟩ := sep_split (Char.ofNat 95) _ _ _ _ hna hnb hd2
  exact ⟨natStr_injective (String.ext h1), intStr_injective (String.ext h2)⟩

theorem lineInsert_some_eq (env : Env) (n : Nat) (ev : SessionEvent) :
    lineInsert env (n, some ev)
      = match process_event env ev with
        | none => none
        | some entry =>
          match get_dedup_key ev with
          | some key => some (key, entry)
          | none => some (no_dedup_key n entry.timestamp, entry) := rfl

/-- Filtering the insertion sequence at a colon-bearing key keeps exactly
the keyed entries of the events whose dedup key is that key. -/
theorem insertionSeq_filter_colon (env : Env) (k : String) (hk : Char.ofNat 58 ∈ k.data) :
    ∀ (lines : List SourceLine) (n : Nat),
    ((List.enumFrom n lines).filterMap (lineInsert env)).filter (fun p => p.1 = k)
      = (keyedEntries env lines k).map (fun e => (k, e)) := by
  intro lines
  induction lines with
  | nil => intro n; rfl
  | cons ol tl ih =>
    intro n
    simp only [keyedEntries] at ih ⊢
    rw [show List.enumFrom n (ol :: tl) = (n, ol) :: List.enumFrom (n + 1) tl from rfl]
    rw [List.filterMap_cons, List.filterMap_cons]
    cases ol with
    | none =>
      rw [show lineInsert env (n, none) = none from rfl, Option.none_bind']
      dsimp only
      exact ih (n + 1)
    | some ev =>
      rw [lineInsert_some_eq, Option.some_bind']
      cases hpe : process_event env ev with
      | none =>
        dsimp only
        by_cases hdk : get_dedup_key ev = some k
        · rw [if_pos hdk]
          dsimp only
          exact ih (n + 1)
        · rw [if_neg hdk]
          dsimp only
          exact ih (n + 1)
      | some entry =>
        dsimp only
        cases hdk : get_dedup_key ev with
        | some key =>
          dsimp only
          by_cases hkk : key = k
          · subst hkk
            rw [if_pos rfl]
            dsimp only
            rw [List.filter_cons]
            simp only [decide_True, if_true]
            rw [ih (n + 1), List.map_cons]
          · rw [if_neg (fun hc => hkk (Option.some.inj hc))]
            dsimp only
            rw [List.filter_cons]
            simp only [hkk, decide_False, if_false]
            exact ih (n + 1)
        | none =>
          dsimp only
          rw [if_neg (fun hc => by cases hc)]
          dsimp only
          rw [List.filter_cons]
          have hne : no_dedup_key n entry.timestamp ≠ k := by
            intro hc
            exact no_colon_no_dedup_key n entry.timestamp (hc ▸ hk)
          simp only [hne, decide_False, if_false]
          exact ih (n + 1)

/-- Every key in the insertion sequence is either a colon-bearing composite
key or a synthetic key whose line number is at least the enumeration base. -/
theorem insertionSeq_key_shape (env : Env) :
    ∀ (lines : List SourceLine) (n : Nat) (p : String × UsageEntry),
      p ∈ (List.enumFrom n lines).filterMap (lineInsert env) →
      Char.ofNat 58 ∈ p.1.data ∨ ∃ j ts, n ≤ j ∧ p.1 = no_dedup_key j ts := by
  intro lines
  induction lines with
  | nil => intro n p h; simp [List.enumFrom] at h
  | cons ol tl ih =>
    intro n p hmem
    rw [show List.enumFrom n (ol :: tl) = (n, ol) :: List.enumFrom (n + 1) tl from rfl,
      List.filterMap_cons] at hmem
    have htail : p ∈ (List.enumFrom (n + 1) tl).filterMap (lineInsert env) →
        Char.ofNat 58 ∈ p.1.data ∨ ∃ j ts, n ≤ j ∧ p.1 = no_dedup_key j ts := by
      intro h
      rcases ih (n + 1) p h with h2 | ⟨j, ts, hj, hp⟩
      · exact Or.inl h2
      · exact Or.inr ⟨j, ts, by omega, hp⟩
    cases ol with
    | none =>
      rw [show lineInsert env (n, none) = none from rfl] at hmem
      exact htail hmem
    | some ev =>
      rw [lineInsert_some_eq] at hmem
      cases hpe : process_event env ev with
      | none =>
        rw [hpe] at hmem
        exact htail hmem
      | some entry =>
        rw [hpe] at hmem
        cases hdk : get_dedup_key ev with
        | some key =>
          rw [hdk] at hmem
          rcases List.mem_cons.mp hmem with rfl | h2
          · exact Or.inl (colon_mem_dedup_key ev key hdk)
          · exact htail h2
        | none =>
          rw [hdk] at hmem
          rcases List.mem_cons.mp hmem with rfl | h2
          · exact Or.inr ⟨n, entry.timestamp, le_refl n, rfl⟩
          · exact htail h2

/-- Filtering the insertion sequence at the synthetic key of a keyless line
keeps exactly that line's entry. -/
theorem insertionSeq_filter_synthetic (env : Env) :
    ∀ (lines : List SourceLine) (n i : Nat) (ev : SessionEvent) (e : UsageEntry),
      lines.get? i = some (some ev) → get_dedup_key ev = none →
      process_event env ev = some e →
      ((List.enumFrom n lines).filterMap (lineInsert env)).filter
          (fun p => p.1 = no_dedup_key (n + i) e.timestamp)
        = [(no_dedup_key (n + i) e.timestamp, e)] := by
  intro lines
  induction lines with
  | nil => intro n i ev e hget _ _; simp at hget
  | cons ol tl ih =>
    intro n i ev e hget hdk hpe
    rw [show List.enumFrom n (ol :: tl) = (n, ol) :: List.enumFrom (n + 1) tl from rfl,
      List.filterMap_cons]
    cases i with
    | zero =>
      have hol : ol = some ev := by simpa using hget
      subst hol
      rw [lineInsert_some_eq, hpe, hdk]
      rw [List.filter_cons]
      have : (n + 0) = n := by omega
      rw [this]
      simp only [decide_True, if_true]
      have hrest : ((List.enumFrom (n + 1) tl).filterMap (lineInsert env)).filter
          (fun p => p.1 = no_dedup_key n e.timestamp) = [] := by
        rw [List.filter_eq_nil_iff]
        intro p hp
        rcases insertionSeq_key_shape env tl (n + 1) p hp with h2 | ⟨j, ts, hj, hpkey⟩
        · intro hc
          have := decide_eq_true_eq.mp hc
          exact no_colon_no_dedup_key n e.timestamp (this ▸ h2)
        · intro hc
          have heq := decide_eq_true_eq.mp hc
          rw [hpkey] at heq
          have := (no_dedup_key_inj heq).1
          omega
      rw [hrest]
    | succ i' =>
      have hget' : tl.get? i' = some (some ev) := by simpa using hget
      have hrec := ih (n + 1) i' ev e hget' hdk hpe
      have harith : (n + 1) + i' = n + (i' + 1) := by omega
      rw [harith] at hrec
      have hKsyn : Char.ofNat 58 ∉ (no_dedup_key (n + (i' + 1)) e.timestamp).data :=
        no_colon_no_dedup_key _ _
      cases ol with
      | none =>
        rw [show lineInsert env (n, none) = none from rfl]
        exact hrec
      | some ev0 =>
        rw [lineInsert_some_eq]
        cases hpe0 : process_event env ev0 with
        | none => exact hrec
        | some entry0 =>
          cases hdk0 : get_dedup_key ev0 with
          | some key0 =>
            rw [List.filter_cons]
            have hne : key0 ≠ no_dedup_key (n + (i' + 1)) e.timestamp := by
              intro hc
              exact hKsyn (hc ▸ colon_mem_dedup_key ev0 key0 hdk0)
            simp only [hne, decide_False, if_false]
            exact hrec
          | none =>
            rw [List.filter_cons]
            have hne : no_dedup_key n entry0.timestamp
                ≠ no_dedup_key (n + (i' + 1)) e.timestamp := by
              intro hc
              have := (no_dedup_key_inj hc).1
              omega
            simp only [hne, decide_False, if_false]
            exact hrec

theorem nodup_keysA_foldl_insertA {β : Type} (ps : List (String × β))
    (acc : List (String × β)) (h : (keysA acc).Nodup) :
    (keysA (ps.foldl (fun m p => insertA p.1 p.2 m) acc)).Nodup := by
  induction ps generalizing acc with
  | nil => exact h
  | cons hd tl ih =>
    rw [List.foldl_cons]
    exact ih _ (nodup_keysA_insertA hd.1 hd.2 acc h)

/-- Record A of the section-8 scenario: 100 input / 50 output tokens, no
ids. -/
def evA : SessionEvent :=
  { event_type := none, message := none, timestamp := some "t0", cost := some 0
    usage := some { input_tokens := some 100, output_tokens := some 50
                    cache_creation_tokens := none, cache_read_tokens := none }
    message_id := none, request_id := none }

/-- Record B of the section-8 scenario: ids m1/r1, 10 input / 5 output. -/
def evB1 : SessionEvent :=
  { event_type := none, message := none, timestamp := some "t1", cost := some 0
    usage := some { input_tokens := some 10, output_tokens := some 5
                    cache_creation_tokens := none, cache_read_tokens := none }
    message_id := some "m1", request_id := some "r1" }

/-- The duplicate of record B with 20 input / 10 output. -/
def evB2 : SessionEvent :=
  { event_type := none, message := none, timestamp := some "t2", cost := some 0
    usage := some { input_tokens := some 20, output_tokens := some 10
                    cache_creation_tokens := none, cache_read_tokens := none }
    message_id := some "m1", request_id := some "r1" }

/-- The section-8 scenario file: A, B, then B's duplicate. -/
def scenario8 : List SourceLine := [some evA, some evB1, some evB2]

/-- C2: deduplication within one file.  The final map has no duplicate
keys; for every composite key (any key containing the colon separator) the
surviving entry is exactly the one of the last event in file order carrying
that dedup key; every event missing a message id or a request id survives
under its own synthetic line-indexed key, collapsed with nothing; and on
the section-8 scenario the output is exactly 2 entries totalling 180
input+output tokens. -/
theorem c2_dedup (env : Env) (lines : List SourceLine) (k : String)
    (hk : Char.ofNat 58 ∈ k.data) :
    (keysA (read_jsonl_map env lines)).Nodup
    ∧ lookupA k (read_jsonl_map env lines) = (keyedEntries env lines k).getLast?
    ∧ (∀ i ev e, lines.get? i = some (some ev) → get_dedup_key ev = none →
        process_event env ev = some e →
          lookupA (no_dedup_key i e.timestamp) (read_jsonl_map env lines) = some e)
    ∧ (read_jsonl_file envZ scenario8).length = 2
    ∧ ((read_jsonl_file envZ scenario8).map
        (fun e => e.input_tokens + e.output_tokens)).sum = 180 := by
  refine ⟨?_, ?_, ?_, by decide, by decide⟩
  · rw [read_jsonl_map_eq_foldl]
    exact nodup_keysA_foldl_insertA _ [] (by simp [keysA])
  · rw [read_jsonl_map_eq_foldl, foldl_insertA_lookup]
    rw [show lookupA k ([] : List (String × UsageEntry)) = none from rfl]
    rw [lastVal_eq_getLast?]
    rw [insertionSeq, show lines.enum = List.enumFrom 0 lines from rfl]
    rw [insertionSeq_filter_colon env k hk lines 0]
    rw [List.map_map]
    rw [show (Prod.snd ∘ fun e => (k, e)) = id from rfl, List.map_id]
  · intro i ev e hget hdk hpe
    rw [read_jsonl_map_eq_foldl, foldl_insertA_lookup]
    rw [show lookupA (no_dedup_key i e.timestamp) ([] : List (String × UsageEntry))
        = none from rfl]
    rw [lastVal_eq_getLast?]
    rw [insertionSeq, show lines.enum = List.enumFrom 0 lines from rfl]
    have hfil := insertionSeq_filter_synthetic env lines 0 i ev e hget hdk hpe
    rw [show (0 : Nat) + i = i from by omega] at hfil
    rw [hfil]
    rfl

/-- Witness for C2 on the section-8 scenario: the key "m1:r1" resolves to
the last B record, and A survives under its synthetic key. -/
theorem c2_dedup_witness :
    lookupA "m1:r1" (read_jsonl_map envZ scenario8)
      = (keyedEntries envZ scenario8 "m1:r1").getLast?
    ∧ lookupA (no_dedup_key 0 0) (read_jsonl_map envZ scenario8)
      = some { timestamp := 0, input_tokens := 100, output_tokens := 50
               cache_creation_tokens := 0, cache_read_tokens := 0, cost_usd := 0
               model := "claude-3-5-sonnet", message_id := "", request_id := "unknown" } :=
  ⟨(c2_dedup envZ scenario8 "m1:r1" (by decide)).2.1,
   (c2_dedup envZ scenario8 "m1:r1" (by decide)).2.2.1 0 evA
     { timestamp := 0, input_tokens := 100, output_tokens := 50
       cache_creation_tokens := 0, cache_read_tokens := 0, cost_usd := 0
       model := "claude-3-5-sonnet", message_id := "", request_id := "unknown" }
     (by decide) (by decide) (by decide)⟩

/-! ### C6: order-independence of the cost aggregation -/

theorem minActivity_none (ts : String) : minActivity none ts = some ts := rfl

theorem minActivity_some (f ts : String) :
    minActivity (some f) ts = if ts < f then some ts else some f := rfl

theorem maxActivity_none (ts : String) : maxActivity none ts = some ts := rfl

theorem maxActivity_some (l ts : String) :
    maxActivity (some l) ts = if l < ts then some ts else some l := rfl

theorem minActivity_swap (a b : String) :
    minActivity (some a) b = minActivity (some b) a := by
  rw [minActivity_some, minActivity_some]
  rcases lt_trichotomy a b with h | h | h
  · rw [if_neg (not_lt.mpr (le_of_lt h)), if_pos h]
  · rw [h]
  · rw [if_pos h, if_neg (not_lt.mpr (le_of_lt h))]

theorem maxActivity_swap (a b : String) :
    maxActivity (some a) b = maxActivity (some b) a := by
  rw [maxActivity_some, maxActivity_some]
  rcases lt_trichotomy a b with h | h | h
  · rw [if_pos h, if_neg (not_lt.mpr (le_of_lt h))]
  · rw [h]
  · rw [if_neg (not_lt.mpr (le_of_lt h)), if_pos h]

theorem minActivity_comm (o : Option String) (a b : String) :
    minActivity (minActivity o a) b = minActivity (minActivity o b) a := by
  cases o with
  | none => rw [minActivity_none, minActivity_none, minActivity_swap]
  | some f =>
    rw [minActivity_some (f := f), minActivity_some (f := f)]
    by_cases hha : a < f
    · rw [if_pos hha]
      by_cases hhb : b < f
      · rw [if_pos hhb, minActivity_swap]
      · rw [if_neg hhb, minActivity_some, minActivity_some, if_pos hha]
        have hba : ¬ b < a := fun hc => hhb (hc.trans hha)
        rw [if_neg hba]
    · rw [if_neg hha]
      by_cases hhb : b < f
      · rw [if_pos hhb, minActivity_some, minActivity_some, if_pos hhb]
        have hab : ¬ a < b := fun hc => hha (hc.trans hhb)
        rw [if_neg hab]
      · rw [if_neg hhb, minActivity_some, minActivity_some, if_neg hha, if_neg hhb]

theorem maxActivity_comm (o : Option String) (a b : String) :
    maxActivity (maxActivity o a) b = maxActivity (maxActivity o b) a := by
  cases o with
  | none => rw [maxActivity_none, maxActivity_none, maxActivity_swap]
  | some f =>
    rw [maxActivity_some (l := f), maxActivity_some (l := f)]
    by_cases hha : f < a
    · rw [if_pos hha]
      by_cases hhb : f < b
      · rw [if_pos hhb, maxActivity_swap]
      · rw [if_neg hhb, maxActivity_some, maxActivity_some, if_pos hha]
        have hab : ¬ a < b := fun hc => hhb (hha.trans hc)
        rw [if_neg hab]
    · rw [if_neg hha]
      by_cases hhb : f < b
      · rw [if_pos hhb, maxActivity_some, maxActivity_some, if_pos hhb]
        have hba : ¬ b < a := fun hc => hha (hhb.trans hc)
        rw [if_neg hba]
      · rw [if_neg hhb, maxActivity_some, maxActivity_some, if_neg hha, if_neg hhb]

theorem projectStatsStep_comm (s : ProjectStats) (a b : UsageEntry) :
    projectStatsStep (projectStatsStep s a) b = projectStatsStep (projectStatsStep s b) a := by
  rw [projectStatsStep, projectStatsStep, projectStatsStep, projectStatsStep]
  simp only [ProjectStats.mk.injEq]
  repeat' apply And.intro
  all_goals
    first
      | exact minActivity_comm _ _ _
      | exact maxActivity_comm _ _ _
      | rfl
      | omega
      | ring

theorem calculate_project_stats_perm (proj : ProjectData) (l1 l2 : List UsageEntry)
    (h : l1.Perm l2) :
    calculate_project_stats proj l1 = calculate_project_stats proj l2 := by
  rw [calculate_project_stats, calculate_project_stats]
  rw [h.foldl_eq' (f := projectStatsStep)
    (fun x _ y _ z => projectStatsStep_comm z x y) (initProjectStats proj)]

def addAllDaily (d : DailyUsage) (es : List UsageEntry) : DailyUsage := es.foldl addDaily d

theorem addDaily_comm (d : DailyUsage) (a b : UsageEntry) :
    addDaily (addDaily d a) b = addDaily (addDaily d b) a := by
  rw [addDaily, addDaily, addDaily, addDaily]
  simp only [DailyUsage.mk.injEq]
  repeat' apply And.intro
  all_goals first | rfl | omega | ring

theorem addAllDaily_perm (d : DailyUsage) (es1 es2 : List UsageEntry) (h : es1.Perm es2) :
    addAllDaily d es1 = addAllDaily d es2 :=
  h.foldl_eq' (fun x _ y _ z => addDaily_comm z x y) d

/-- The entries of a list that fall on a given date. -/
def dayFilter (k : Int) (es : List UsageEntry) : List UsageEntry :=
  es.filter (fun e => dateKey e.timestamp = k)

/-- The aggregated daily bucket of a date, directly from the entry list. -/
def aggDay (k : Int) (es : List UsageEntry) : Option DailyUsage :=
  if (dayFilter k es).isEmpty then none
  else some (addAllDaily (initDaily k) (dayFilter k es))

theorem aggDay_perm (k : Int) (l1 l2 : List UsageEntry) (h : l1.Perm l2) :
    aggDay k l1 = aggDay k l2 := by
  rw [aggDay, aggDay]
  have hfil : (dayFilter k l1).Perm (dayFilter k l2) := h.filter _
  have hemp : (dayFilter k l1).isEmpty = (dayFilter k l2).isEmpty := by
    have hlen := hfil.length_eq
    cases hq1 : dayFilter k l1 <;> cases hq2 : dayFilter k l2 <;>
      simp_all
  rw [hemp]
  by_cases he : (dayFilter k l2).isEmpty
  · rw [if_pos he, if_pos he]
  · rw [if_neg he, if_neg he, addAllDaily_perm _ _ _ hfil]

theorem lookup_daily_fold (es : List UsageEntry) (acc : List (Int × DailyUsage)) (k : Int) :
    lookupA k (es.foldl dailyStep acc)
      = match lookupA k acc with
        | some d => some (addAllDaily d (dayFilter k es))
        | none => aggDay k es := by
  induction es generalizing acc with
  | nil =>
    rw [List.foldl_nil]
    cases lookupA k acc <;> simp [dayFilter, aggDay, addAllDaily]
  | cons e tl ih =>
    rw [List.foldl_cons, ih]
    by_cases hk : dateKey e.timestamp = k
    · have hup : lookupA k (dailyStep acc e)
          = some (addDaily ((lookupA k acc).getD (initDaily k)) e) := by
        rw [dailyStep, hk, lookupA_upsertA_self]
      rw [hup]
      have hfil : dayFilter k (e :: tl) = e :: dayFilter k tl := by
        rw [dayFilter, List.filter_cons]
        simp [hk, dayFilter]
      cases hacc : lookupA k acc with
      | some d =>
        dsimp only
        rw [hfil]
        rfl
      | none =>
        dsimp only
        rw [aggDay, hfil]
        rw [if_neg (by simp)]
        rfl
    · have hup : lookupA k (dailyStep acc e) = lookupA k acc := by
        rw [dailyStep]
        exact lookupA_upsertA_ne _ _ (fun hc => hk hc.symm)
      rw [hup]
      have hfil : dayFilter k (e :: tl) = dayFilter k tl := by
        rw [dayFilter, List.filter_cons]
        simp [hk, dayFilter]
      cases hacc : lookupA k acc with
      | some d =>
        dsimp only
        rw [hfil]
      | none =>
        dsimp only
        rw [aggDay, aggDay, hfil]

theorem upsertA_forall {α β : Type} [DecidableEq α] (Q : α × β → Prop) (k : α)
    (f : Option β → β) (l : List (α × β)) (hl : ∀ p ∈ l, Q p) (hnew : Q (k, f none))
    (hupd : ∀ v, Q (k, v) → Q (k, f (some v))) : ∀ p ∈ upsertA k f l, Q p := by
  induction l with
  | nil =>
    intro p hp
    rw [upsertA] at hp
    rcases List.mem_singleton.mp hp with rfl
    exact hnew
  | cons hd tl ih =>
    obtain ⟨k', v'⟩ := hd
    intro p hp
    rw [upsertA] at hp
    by_cases hk : k = k'
    · rw [if_pos hk] at hp
      rcases List.mem_cons.mp hp with rfl | hp2
      · subst hk
        exact hupd v' (hl (k, v') (List.mem_cons_self _ _))
      · exact hl p (List.mem_cons_of_mem _ hp2)
    · rw [if_neg hk] at hp
      rcases List.mem_cons.mp hp with rfl | hp2
      · exact hl (k', v') (List.mem_cons_self _ _)
      · exact ih (fun q hq => hl q (List.mem_cons_of_mem _ hq)) p hp2

theorem daily_fold_invariant (es : List UsageEntry) (acc : List (Int × DailyUsage))
    (h1 : (keysA acc).Nodup) (h2 : ∀ p ∈ acc, (p.2).date = p.1) :
    (keysA (es.foldl dailyStep acc)).Nodup
    ∧ ∀ p ∈ es.foldl dailyStep acc, (p.2).date = p.1 := by
  induction es generalizing acc with
  | nil => exact ⟨h1, h2⟩
  | cons e tl ih =>
    rw [List.foldl_cons]
    apply ih
    · exact nodup_keysA_upsertA _ _ _ h1
    · apply upsertA_forall _ _ _ _ h2
      · rfl
      · intro v hv
        show (addDaily v e).date = dateKey e.timestamp
        rw [show (addDaily v e).date = v.date from rfl]
        exact hv

theorem daily_pairs_perm (l1 l2 : List UsageEntry) (h : l1.Perm l2) :
    (l1.foldl dailyStep []).Perm (l2.foldl dailyStep []) := by
  have inv1 := daily_fold_invariant l1 [] (by simp [keysA]) (by simp)
  have inv2 := daily_fold_invariant l2 [] (by simp [keysA]) (by simp)
  rw [List.perm_ext_iff_of_nodup (inv1.1.of_map Prod.fst) (inv2.1.of_map Prod.fst)]
  rintro ⟨k, v⟩
  rw [mem_iff_lookupA _ _ _ inv1.1, mem_iff_lookupA _ _ _ inv2.1]
  rw [lookup_daily_fold, lookup_daily_fold]
  rw [show lookupA k ([] : List (Int × DailyUsage)) = none from rfl]
  rw [aggDay_perm k l1 l2 h]

instance : IsTotal DailyUsage (fun a b => a.date ≤ b.date) :=
  ⟨fun a b => Int.le_total a.date b.date⟩

instance : IsTrans DailyUsage (fun a b => a.date ≤ b.date) :=
  ⟨fun _ _ _ => le_trans⟩

instance : IsAntisymm DailyUsage (fun a b => a.date < b.date) :=
  ⟨fun _ _ h1 h2 => absurd h1 (not_lt.mpr (le_of_lt h2))⟩

theorem calculate_daily_usage_perm (l1 l2 : List UsageEntry) (h : l1.Perm l2) :
    calculate_daily_usage l1 = calculate_daily_usage l2 := by
  rw [calculate_daily_usage, calculate_daily_usage]
  have inv1 := daily_fold_invariant l1 [] (by simp [keysA]) (by simp)
  have inv2 := daily_fold_invariant l2 [] (by simp [keysA]) (by simp)
  have hpairs : (l1.foldl dailyStep []).Perm (l2.foldl dailyStep []) :=
    daily_pairs_perm l1 l2 h
  have hvals := hpairs.map (fun p : Int × DailyUsage =>
    { p.2 with cost_usd := round6 p.2.cost_usd })
  have hperm : (List.insertionSort (fun a b : DailyUsage => a.date ≤ b.date)
        ((l1.foldl dailyStep []).map (fun p =>
          { p.2 with cost_usd := round6 p.2.cost_usd }))).Perm
      (List.insertionSort (fun a b : DailyUsage => a.date ≤ b.date)
        ((l2.foldl dailyStep []).map (fun p =>
          { p.2 with cost_usd := round6 p.2.cost_usd }))) :=
    ((List.perm_insertionSort _ _).trans hvals).trans
      (List.perm_insertionSort _ _).symm
  have hdates : ∀ (l : List UsageEntry),
      (∀ p ∈ l.foldl dailyStep [], (p.2).date = p.1) →
      ((l.foldl dailyStep []).map (fun p : Int × DailyUsage =>
        { p.2 with cost_usd := round6 p.2.cost_usd })).map DailyUsage.date
        = keysA (l.foldl dailyStep []) := by
    intro l hinv
    rw [List.map_map, keysA]
    exact List.map_congr_left (fun p hp => hinv p hp)
  have hsortlt : ∀ (l : List UsageEntry),
      (∀ p ∈ l.foldl dailyStep [], (p.2).date = p.1) →
      (keysA (l.foldl dailyStep [])).Nodup →
      List.Sorted (fun a b : DailyUsage => a.date < b.date)
        (List.insertionSort (fun a b : DailyUsage => a.date ≤ b.date)
          ((l.foldl dailyStep []).map (fun p =>
            { p.2 with cost_usd := round6 p.2.cost_usd }))) := by
    intro l hinv hnd
    have hle := List.sorted_insertionSort (fun a b : DailyUsage => a.date ≤ b.date)
      ((l.foldl dailyStep []).map (fun p =>
        { p.2 with cost_usd := round6 p.2.cost_usd }))
    have hpm : ((List.insertionSort (fun a b : DailyUsage => a.date ≤ b.date)
        ((l.foldl dailyStep []).map (fun p =>
          { p.2 with cost_usd := round6 p.2.cost_usd }))).map DailyUsage.date).Perm
        (((l.foldl dailyStep []).map (fun p : Int × DailyUsage =>
          { p.2 with cost_usd := round6 p.2.cost_usd })).map DailyUsage.date) :=
      (List.perm_insertionSort _ _).map DailyUsage.date
    have hndsorted := hpm.nodup_iff.mpr (by rw [hdates l hinv]; exact hnd)
    have hne := List.pairwise_map.mp hndsorted
    exact (hle.and hne).imp (fun hab => lt_of_le_of_ne hab.1 hab.2)
  exact List.eq_of_perm_of_sorted hperm
    (hsortlt l1 inv1.2 inv1.1) (hsortlt l2 inv2.2 inv2.1)

/-- C6: for a fixed multiset of entries the per-project stats (cost rounded
to 6 decimals at the project boundary), the per-day buckets (cost rounded at
the day boundary, output sorted by date), and the overall fold over the
already-rounded per-project values are deterministic and independent of the
order in which the entries are folded. -/
theorem c6_rounding_stability (proj : ProjectData) (l1 l2 : List UsageEntry)
    (h : l1.Perm l2) :
    calculate_project_stats proj l1 = calculate_project_stats proj l2
    ∧ calculate_daily_usage l1 = calculate_daily_usage l2
    ∧ (∀ (pls1 pls2 : List (ProjectData × List UsageEntry)) (o : OverallStats),
        List.Forall₂ (fun a b => a.1 = b.1 ∧ a.2.Perm b.2) pls1 pls2 →
        (pls1.map (fun pe => calculate_project_stats pe.1 pe.2)).foldl overallStep o
          = (pls2.map (fun pe => calculate_project_stats pe.1 pe.2)).foldl overallStep o) := by
  refine ⟨calculate_project_stats_perm proj l1 l2 h, calculate_daily_usage_perm l1 l2 h, ?_⟩
  intro pls1 pls2 o hrel
  have hmap : pls1.map (fun pe => calculate_project_stats pe.1 pe.2)
      = pls2.map (fun pe => calculate_project_stats pe.1 pe.2) := by
    induction hrel with
    | nil => rfl
    | cons hab _ ih =>
      rw [List.map_cons, List.map_cons, ih]
      congr 1
      rw [hab.1, calculate_project_stats_perm _ _ _ hab.2]
  rw [hmap]

/-- Witness for C6 on a concrete two-entry multiset presented in both
orders. -/
theorem c6_rounding_stability_witness :
    calculate_project_stats
        { encoded_path := "p", decoded_path := "p", display_name := "p", session_files := [] }
        [mkModelEntry "a" 1, mkModelEntry "b" 2]
      = calculate_project_stats
        { encoded_path := "p", decoded_path := "p", display_name := "p", session_files := [] }
        [mkModelEntry "b" 2, mkModelEntry "a" 1]
    ∧ calculate_daily_usage [mkModelEntry "a" 1, mkModelEntry "b" 2]
      = calculate_daily_usage [mkModelEntry "b" 2, mkModelEntry "a" 1] :=
  ⟨(c6_rounding_stability
      { encoded_path := "p", decoded_path := "p", display_name := "p", session_files := [] }
      [mkModelEntry "a" 1, mkModelEntry "b" 2] [mkModelEntry "b" 2, mkModelEntry "a" 1]
      (List.Perm.swap _ _ _)).1,
   (c6_rounding_stability
      { encoded_path := "p", decoded_path := "p", display_name := "p", session_files := [] }
      [mkModelEntry "a" 1, mkModelEntry "b" 2] [mkModelEntry "b" 2, mkModelEntry "a" 1]
      (List.Perm.swap _ _ _)).2.1⟩

/-! ### C1: incremental refresh against full reload -/

/-- The ProjectData a directory listing produces for one project directory. -/
def toProjectData (dir : ProjDir) : ProjectData :=
  { encoded_path := dir.encoded_path
    decoded_path := decode_project_path dir.encoded_path
    display_name := get_display_name (decode_project_path dir.encoded_path)
    session_files := dir.files.map SrcFile.path }

/-- The project list list_projects returns on an existing root. -/
def listedProjects (d : Disk) : List ProjectData :=
  d.dirs.filterMap (fun dir => if dir.files.isEmpty then none else some (toProjectData dir))

theorem list_projects_ok (d : Disk) (hroot : d.root_exists = true) :
    list_projects d = .ok (listedProjects d) := by
  rw [list_projects, if_pos hroot, listedProjects]
  rfl

/-- The registry entry a file receives when it is (re)parsed. -/
def fileEntry (env : Env) (f : SrcFile) : FileCacheEntry :=
  { mtime := f.mtime, entries := read_jsonl_file env f.lines }

/-- The registry full_load builds: one record per on-disk file. -/
def diskCache (env : Env) (d : Disk) : List (String × FileCacheEntry) :=
  d.allFiles.map (fun f => (f.path, fileEntry env f))

/-- The parsed entries of one project directory. -/
def projEntries (env : Env) (dir : ProjDir) : List UsageEntry :=
  dir.files.flatMap (fun f => read_jsonl_file env f.lines)

/-- The per-project data full_load hands to the aggregation. -/
def diskAllData (env : Env) (d : Disk) : List (ProjectData × List UsageEntry) :=
  d.dirs.filterMap (fun dir =>
    if dir.files.isEmpty then none
    else some (toProjectData dir, projEntries env dir))

/-- Appending one line to the file at path p (the file's modification time
advances). -/
def bumpFile (p : String) (ln : SourceLine) (f : SrcFile) : SrcFile :=
  if f.path = p then { f with lines := f.lines ++ [ln], mtime := f.mtime + 1 } else f

def bumpDir (p : String) (ln : SourceLine) (dir : ProjDir) : ProjDir :=
  { dir with files := dir.files.map (bumpFile p ln) }

/-- The disk after appending one line to the file at path p. -/
def appendLine (d : Disk) (p : String) (ln : SourceLine) : Disk :=
  { d with dirs := d.dirs.map (bumpDir p ln) }

theorem bumpFile_path (p : String) (ln : SourceLine) (f : SrcFile) :
    (bumpFile p ln f).path = f.path := by
  rw [bumpFile]
  split <;> rfl

theorem toProjectData_bumpDir (p : String) (ln : SourceLine) (dir : ProjDir) :
    toProjectData (bumpDir p ln dir) = toProjectData dir := by
  rw [toProjectData, toProjectData, bumpDir]
  simp only [ProjectData.mk.injEq, List.map_map]
  repeat' apply And.intro
  all_goals
    first
      | rfl
      | exact List.map_congr_left (fun f _ => by rw [Function.comp_apply, bumpFile_path])
      | trivial

theorem listedProjects_appendLine (d : Disk) (p : String) (ln : SourceLine) :
    listedProjects (appendLine d p ln) = listedProjects d := by
  rw [listedProjects, listedProjects, appendLine]
  rw [List.filterMap_map]
  apply List.filterMap_congr
  intro dir _
  have hempty : (bumpDir p ln dir).files.isEmpty = dir.files.isEmpty := by
    rw [bumpDir]
    cases dir.files <;> rfl
  rw [Function.comp_apply, hempty]
  by_cases he : dir.files.isEmpty
  · rw [if_pos he, if_pos he]
  · rw [if_neg he, if_neg he, toProjectData_bumpDir]

theorem allFiles_appendLine (d : Disk) (p : String) (ln : SourceLine) :
    (appendLine d p ln).allFiles = d.allFiles.map (bumpFile p ln) := by
  show (d.dirs.map (bumpDir p ln)).flatMap ProjDir.files
      = (d.dirs.flatMap ProjDir.files).map (bumpFile p ln)
  rw [List.flatMap_map, List.map_flatMap]
  apply List.flatMap_congr
  intro dir _
  rfl

theorem find?_congr_pred {α : Type} (l : List α) (p q : α → Bool)
    (h : ∀ x ∈ l, p x = q x) : l.find? p = l.find? q := by
  induction l with
  | nil => rfl
  | cons a tl ih =>
    rw [List.find?_cons, List.find?_cons, h a (List.mem_cons_self _ _)]
    cases q a
    · exact ih (fun x hx => h x (List.mem_cons_of_mem _ hx))
    · rfl

/-- Looking up a key in a key-value map built by mapping over a list is the
first element with that key. -/
theorem lookupA_map_pairs {κ β γ : Type} [DecidableEq κ] (k : κ) (l : List γ)
    (key : γ → κ) (val : γ → β) :
    lookupA k (l.map (fun a => (key a, val a)))
      = (l.find? (fun a => key a = k)).map val := by
  induction l with
  | nil => rfl
  | cons a tl ih =>
    rw [List.map_cons, List.find?_cons]
    by_cases h : key a = k
    · rw [show lookupA k ((key a, val a) :: tl.map (fun a => (key a, val a)))
          = some (val a) from by rw [lookupA, if_pos h.symm]]
      rw [show (decide (key a = k)) = true from by simpa using h]
      rfl
    · rw [show lookupA k ((key a, val a) :: tl.map (fun a => (key a, val a)))
          = lookupA k (tl.map (fun a => (key a, val a))) from by
            rw [lookupA, if_neg (fun hc => h hc.symm)]]
      rw [show (decide (key a = k)) = false from by simpa using h]
      exact ih

/-- On a duplicate-free disk, finding a file by its own path returns that
file. -/
theorem findFile_mem (d : Disk) (f : SrcFile)
    (hnodup : (d.allFiles.map SrcFile.path).Nodup) (hf : f ∈ d.allFiles) :
    d.findFile f.path = some f := by
  rw [Disk.findFile]
  cases hq : d.allFiles.find? (fun g => g.path = f.path) with
  | none =>
    have := List.find?_eq_none.mp hq f hf
    simp at this
  | some g =>
    have hg1 := List.find?_some hq
    have hg2 := List.mem_of_find?_eq_some hq
    have hpath : g.path = f.path := by simpa using hg1
    have hgf : g = f := List.inj_on_of_nodup_map hnodup hg2 hf hpath
    rw [hgf]

/-- Inserting a fresh key appends the binding. -/
theorem insertA_not_mem {κ β : Type} [DecidableEq κ] (k : κ) (v : β) (l : List (κ × β))
    (h : k ∉ keysA l) : insertA k v l = l ++ [(k, v)] := by
  induction l with
  | nil => rfl
  | cons hd tl ih =>
    obtain ⟨k', v'⟩ := hd
    rw [insertA]
    have hk : k ≠ k' := fun hc => h (by rw [hc]; exact List.mem_cons_self _ _)
    rw [if_neg hk, List.cons_append, ih (fun hc => h (List.mem_cons_of_mem _ hc))]

/-- Folding fresh insertions of distinct keys appends them all in order. -/
theorem foldl_insertA_fresh {β γ : Type} (l : List γ) (key : γ → String) (val : γ → β)
    (acc : List (String × β)) (hnodup : (keysA acc ++ l.map key).Nodup) :
    l.foldl (fun c a => insertA (key a) (val a) c) acc
      = acc ++ l.map (fun a => (key a, val a)) := by
  induction l generalizing acc with
  | nil => simp
  | cons a tl ih =>
    rw [List.foldl_cons]
    have hka : key a ∉ keysA acc := by
      intro hc
      rcases List.nodup_append.mp hnodup with ⟨_, _, hdisj⟩
      exact hdisj hc (by rw [List.map_cons]; exact List.mem_cons_self _ _)
    rw [insertA_not_mem _ _ _ hka]
    rw [ih (acc ++ [(key a, val a)]) ?h]
    · simp
    case h =>
      rw [show keysA (acc ++ [(key a, val a)]) = keysA acc ++ [key a] from by
        rw [keysA, List.map_append]; rfl]
      rw [List.map_cons] at hnodup
      rw [List.append_assoc]
      rw [List.nodup_append] at hnodup ⊢
      obtain ⟨h1, h2, h3⟩ := hnodup
      refine ⟨h1, ?_, ?_⟩
      · rw [List.singleton_append]
        exact h2
      · intro x hx hy
        exact h3 hx (by
          rcases List.mem_cons.mp hy with rfl | hy2
          · exact List.mem_cons_self _ _
          · exact List.mem_cons_of_mem _ hy2)

theorem fullLoad_files_fold (env : Env) (d : Disk) (files : List SrcFile)
    (hfind : ∀ f ∈ files, d.findFile f.path = some f) (m : CacheManager)
    (es : List UsageEntry) :
    (files.map SrcFile.path).foldl (fullLoadFileStep env d) (m, es)
      = ({ m with file_cache := (files.foldl
            (fun c f => insertA f.path (fileEntry env f) c) m.file_cache) },
         es ++ files.flatMap (fun f => read_jsonl_file env f.lines)) := by
  induction files generalizing m es with
  | nil => simp
  | cons f tl ih =>
    rw [List.map_cons, List.foldl_cons]
    have hstep : fullLoadFileStep env d (m, es) f.path
        = ({ m with file_cache := insertA f.path (fileEntry env f) m.file_cache },
           es ++ read_jsonl_file env f.lines) := by
      rw [fullLoadFileStep, readFileOnDisk, hfind f (List.mem_cons_self _ _)]
      dsimp only
      rw [update_file_cache, hfind f (List.mem_cons_self _ _)]
      rfl
    rw [hstep, ih (fun g hg => hfind g (List.mem_cons_of_mem _ hg))]
    rw [List.foldl_cons, List.flatMap_cons, List.append_assoc]

theorem fullLoad_proj_fold (env : Env) (d : Disk) (dirs : List ProjDir)
    (hfind : ∀ dir ∈ dirs, ∀ f ∈ dir.files, d.findFile f.path = some f)
    (acc : CacheManager × List (ProjectData × List UsageEntry)) :
    (dirs.filterMap (fun dir => if dir.files.isEmpty then none
        else some (toProjectData dir))).foldl (fullLoadProjStep env d) acc
      = ({ acc.1 with file_cache := ((dirs.flatMap ProjDir.files).foldl
            (fun c f => insertA f.path (fileEntry env f) c) acc.1.file_cache) },
         acc.2 ++ dirs.filterMap (fun dir => if dir.files.isEmpty then none
           else some (toProjectData dir, projEntries env dir))) := by
  induction dirs generalizing acc with
  | nil => simp
  | cons dir tl ih =>
    rw [List.filterMap_cons, List.filterMap_cons, List.flatMap_cons, List.foldl_append]
    by_cases he : dir.files.isEmpty
    · have hfe : dir.files = [] := by
        cases hq : dir.files
        · rfl
        · rw [hq] at he; cases he
      rw [if_pos he, if_pos he, hfe]
      rw [ih (fun dd hd => hfind dd (List.mem_cons_of_mem _ hd)) acc]
      rfl
    · rw [if_neg he, if_neg he, List.foldl_cons]
      have hstep : fullLoadProjStep env d acc (toProjectData dir)
          = ({ acc.1 with file_cache := (dir.files.foldl
                (fun c f => insertA f.path (fileEntry env f) c) acc.1.file_cache) },
             acc.2 ++ [(toProjectData dir, projEntries env dir)]) := by
        rw [fullLoadProjStep]
        rw [show (toProjectData dir).session_files = dir.files.map SrcFile.path from rfl]
        rw [fullLoad_files_fold env d dir.files
          (fun f hf => hfind dir (List.mem_cons_self _ _) f hf) acc.1 []]
        rw [List.nil_append]
        rfl
      rw [hstep, ih (fun dd hd => hfind dd (List.mem_cons_of_mem _ hd))]
      rw [List.append_assoc]
      rfl

theorem full_load_eq (env : Env) (d : Disk) (now tz : Int) (mgr0 : CacheManager)
    (hroot : d.root_exists = true)
    (hnodup : (d.allFiles.map SrcFile.path).Nodup) :
    full_load env d now tz mgr0
      = .ok ({ file_cache := diskCache env d, cached_projects := listedProjects d },
             calculate_usage_data (diskAllData env d) now tz) := by
  rw [full_load, list_projects_ok d hroot]
  dsimp only
  rw [show listedProjects d = d.dirs.filterMap (fun dir => if dir.files.isEmpty then none
      else some (toProjectData dir)) from rfl]
  rw [fullLoad_proj_fold env d d.dirs
    (fun dir hdir f hf => findFile_mem d f hnodup
      (List.mem_flatMap.mpr ⟨dir, hdir, hf⟩)) (CacheManager.empty, [])]
  rw [show (CacheManager.empty, ([] : List (ProjectData × List UsageEntry))).1
      = CacheManager.empty from rfl]
  rw [show CacheManager.empty.file_cache = ([] : List (String × FileCacheEntry)) from rfl]
  rw [show d.dirs.flatMap ProjDir.files = d.allFiles from rfl]
  rw [foldl_insertA_fresh d.allFiles SrcFile.path (fileEntry env) []
    (by rw [show keysA ([] : List (String × FileCacheEntry)) = [] from rfl,
      List.nil_append]; exact hnodup)]
  rw [List.nil_append]
  rfl

/-- The per-file predicate deciding membership in the modified list. -/
def isModifiedFile (d : Disk) (mgr : CacheManager) (fp : String) : Bool :=
  match d.findFile fp with
  | none => false
  | some f =>
    match lookupA fp mgr.file_cache with
    | some cached => decide (cached.mtime < f.mtime)
    | none => false

/-- The per-file predicate deciding membership in the new-files list. -/
def isNewFile (d : Disk) (mgr : CacheManager) (fp : String) : Bool :=
  match d.findFile fp with
  | none => false
  | some _ =>
    match lookupA fp mgr.file_cache with
    | some _ => false
    | none => true

theorem checkFileStep_fold (d : Disk) (mgr : CacheManager) (files : List String)
    (acc : FileChanges) :
    files.foldl (checkFileStep d mgr) acc
      = { acc with modified := acc.modified ++ files.filter (isModifiedFile d mgr)
                   new_files := acc.new_files ++ files.filter (isNewFile d mgr) } := by
  induction files generalizing acc with
  | nil => simp
  | cons fp tl ih =>
    rw [List.foldl_cons, List.filter_cons, List.filter_cons]
    have hstep : checkFileStep d mgr acc fp
        = { acc with modified := acc.modified ++ (if isModifiedFile d mgr fp then [fp] else [])
                     new_files := acc.new_files ++ (if isNewFile d mgr fp then [fp] else []) } := by
      rw [checkFileStep, isModifiedFile, isNewFile]
      cases hff : d.findFile fp with
      | none => simp
      | some f =>
        dsimp only
        cases hlk : lookupA fp mgr.file_cache with
        | some cached =>
          dsimp only
          by_cases hm : cached.mtime < f.mtime
          · rw [if_pos hm]
            simp [hm]
          · rw [if_neg hm]
            simp [hm]
        | none => simp
    rw [hstep, ih]
    by_cases h1 : isModifiedFile d mgr fp <;>
      by_cases h2 : isNewFile d mgr fp <;>
      simp [h1, h2, List.append_assoc]

theorem check_file_changes_eq (d : Disk) (mgr : CacheManager) (files : List String) :
    check_file_changes d mgr files
      = .ok { modified := files.filter (isModifiedFile d mgr)
              new_files := files.filter (isNewFile d mgr)
              deleted := (keysA mgr.file_cache).filter (fun q => ¬ q ∈ files) } := by
  rw [check_file_changes]
  rw [checkFileStep_fold]
  rfl

theorem keysA_map_pairs {β γ : Type} (l : List γ) (key : γ → String) (val : γ → β) :
    keysA (l.map (fun a => (key a, val a))) = l.map key := by
  rw [keysA, List.map_map]
  rfl

theorem listed_files_aux (dirs : List ProjDir) :
    (dirs.filterMap (fun dir => if dir.files.isEmpty then none
        else some (toProjectData dir))).flatMap ProjectData.session_files
      = (dirs.flatMap ProjDir.files).map SrcFile.path := by
  induction dirs with
  | nil => rfl
  | cons dir tl ih =>
    rw [List.filterMap_cons, List.flatMap_cons, List.map_append]
    by_cases he : dir.files.isEmpty
    · have hfe : dir.files = [] := by
        cases hq : dir.files
        · rfl
        · rw [hq] at he; cases he
      rw [if_pos he, ih, hfe]
      rfl
    · rw [if_neg he, List.flatMap_cons, ih]
      rfl

theorem listed_files (d : Disk) :
    (listedProjects d).flatMap ProjectData.session_files = d.allFiles.map SrcFile.path :=
  listed_files_aux d.dirs

theorem filter_false_nil {α : Type} (l : List α) (q : α → Bool)
    (h : ∀ a ∈ l, q a = false) : l.filter q = [] := by
  induction l with
  | nil => rfl
  | cons a tl ih =>
    rw [List.filter_cons, h a (List.mem_cons_self _ _)]
    rw [if_neg Bool.false_ne_true]
    exact ih (fun b hb => h b (List.mem_cons_of_mem _ hb))

/-- A list with duplicate-free keys filtered down to one key is the one
element carrying that key. -/
theorem filter_key_singleton {α κ : Type} [DecidableEq κ] (key : α → κ) (x : α) (c : κ) :
    ∀ l : List α, (l.map key).Nodup → x ∈ l → key x = c →
      l.filter (fun y => key y = c) = [x] := by
  intro l
  induction l with
  | nil => intro _ hx; cases hx
  | cons a tl ih =>
    intro hnodup hx hkey
    rw [List.map_cons, List.nodup_cons] at hnodup
    rw [List.filter_cons]
    rcases List.mem_cons.mp hx with rfl | hxtl
    · rw [if_pos (by simpa using hkey)]
      have htl : tl.filter (fun y => key y = c) = [] := by
        apply filter_false_nil
        intro y hy
        simp only [decide_eq_false_iff_not]
        intro hyc
        exact hnodup.1 (by
          rw [show key x = key y from by rw [hkey, hyc]]
          exact List.mem_map_of_mem key hy)
      rw [htl]
    · have hka : ¬ key a = c := by
        intro hac
        exact hnodup.1 (by
          rw [show key a = key x from by rw [hac, hkey]]
          exact List.mem_map_of_mem key hxtl)
      rw [if_neg (by simpa using hka)]
      exact ih hnodup.2 hxtl hkey

theorem find?_eq_some_unique {α : Type} (q : α → Bool) (x : α) :
    ∀ l : List α, x ∈ l → q x = true → (∀ y ∈ l, q y = true → y = x) →
      l.find? q = some x := by
  intro l
  induction l with
  | nil => intro hx; cases hx
  | cons a tl ih =>
    intro hx hq huniq
    rw [List.find?_cons]
    cases hqa : q a with
    | true =>
      dsimp only
      rw [huniq a (List.mem_cons_self _ _) hqa]
    | false =>
      dsimp only
      rcases List.mem_cons.mp hx with rfl | hxtl
      · rw [hq] at hqa; cases hqa
      · exact ih hxtl hq (fun y hy => huniq y (List.mem_cons_of_mem _ hy))

/-- Two directories of a duplicate-free disk that both contain a file path
are the same directory. -/
theorem dirs_owner_unique (dirA dirB : ProjDir) (fp : String) :
    ∀ dirs : List ProjDir, ((dirs.flatMap ProjDir.files).map SrcFile.path).Nodup →
      dirA ∈ dirs → dirB ∈ dirs → fp ∈ dirA.files.map SrcFile.path →
      fp ∈ dirB.files.map SrcFile.path → dirA = dirB := by
  intro dirs
  induction dirs with
  | nil => intro _ hA; cases hA
  | cons dd tl ih =>
    intro hnodup hA hB hfA hfB
    rw [List.flatMap_cons, List.map_append, List.nodup_append] at hnodup
    obtain ⟨h1, h2, hdisj⟩ := hnodup
    have hmemtl : ∀ dir2 ∈ tl, fp ∈ dir2.files.map SrcFile.path →
        fp ∈ (tl.flatMap ProjDir.files).map SrcFile.path := by
      intro dir2 h2m hf2
      rw [List.map_flatMap]
      exact List.mem_flatMap.mpr ⟨dir2, h2m, hf2⟩
    rcases List.mem_cons.mp hA with rfl | hAtl <;> rcases List.mem_cons.mp hB with hBh | hBtl
    · rw [hBh]
    · exact absurd (hmemtl dirB hBtl hfB) (fun hc => hdisj hfA hc)
    · rw [hBh] at hfB
      exact absurd (hmemtl dirA hAtl hfA) (fun hc => hdisj hfB hc)
    · exact ih h2 hAtl hBtl hfA hfB

/-- Replacing the value bound to an occupied key of a mapped pair list
updates that element in place. -/
theorem insertA_map_update {β γ : Type} (key : γ → String) (val val' : γ → β)
    (p : String) (v : β) :
    ∀ l : List γ, (l.map key).Nodup → (∃ a ∈ l, key a = p) →
      (∀ a ∈ l, ¬ key a = p → val' a = val a) → (∀ a ∈ l, key a = p → val' a = v) →
      insertA p v (l.map (fun a => (key a, val a))) = l.map (fun a => (key a, val' a)) := by
  intro l
  induction l with
  | nil =>
    intro _ hmem
    obtain ⟨a, ha, _⟩ := hmem
    cases ha
  | cons a tl ih =>
    intro hnodup hmem hne heq
    rw [List.map_cons, List.map_cons, insertA]
    rw [List.map_cons, List.nodup_cons] at hnodup
    by_cases hka : key a = p
    · rw [if_pos hka.symm]
      have hv : v = val' a := (heq a (List.mem_cons_self _ _) hka).symm
      have htl : tl.map (fun b => (key b, val b)) = tl.map (fun b => (key b, val' b)) := by
        apply List.map_congr_left
        intro b hb
        have hkb : ¬ key b = p := by
          intro hbp
          exact hnodup.1 (by
            rw [show key a = key b from by rw [hka, hbp]]
            exact List.mem_map_of_mem key hb)
        rw [hne b (List.mem_cons_of_mem _ hb) hkb]
      rw [hv, hka, htl]
    · rw [if_neg (fun hc => hka hc.symm)]
      have hmem2 : ∃ b ∈ tl, key b = p := by
        obtain ⟨b, hb, hbp⟩ := hmem
        rcases List.mem_cons.mp hb with rfl | hbtl
        · exact absurd hbp hka
        · exact ⟨b, hbtl, hbp⟩
      rw [ih hnodup.2 hmem2 (fun b hb => hne b (List.mem_cons_of_mem _ hb))
        (fun b hb => heq b (List.mem_cons_of_mem _ hb))]
      rw [hne a (List.mem_cons_self _ _) hka]

theorem projectStatsStep_path (s : ProjectStats) (e : UsageEntry) :
    (projectStatsStep s e).project_path = s.project_path := rfl

theorem foldl_projectStatsStep_path (es : List UsageEntry) :
    ∀ s : ProjectStats, (es.foldl projectStatsStep s).project_path = s.project_path := by
  induction es with
  | nil => intro s; rfl
  | cons e tl ih =>
    intro s
    rw [List.foldl_cons, ih, projectStatsStep_path]

theorem calculate_project_stats_path (pr : ProjectData) (es : List UsageEntry) :
    (calculate_project_stats pr es).project_path = pr.decoded_path := by
  rw [calculate_project_stats]
  dsimp only
  rw [show ({ es.foldl projectStatsStep (initProjectStats pr) with
      total_cost_usd := round6 (es.foldl projectStatsStep (initProjectStats pr)).total_cost_usd
      } : ProjectStats).project_path
    = (es.foldl projectStatsStep (initProjectStats pr)).project_path from rfl]
  rw [foldl_projectStatsStep_path]
  rfl

theorem diskAllData_fst (env : Env) (d : Disk) :
    (diskAllData env d).map Prod.fst = listedProjects d := by
  rw [diskAllData, listedProjects, List.map_filterMap]
  apply List.filterMap_congr
  intro dir _
  by_cases he : dir.files.isEmpty
  · rw [if_pos he, if_pos he]
    rfl
  · rw [if_neg he, if_neg he]
    rfl

theorem calculate_usage_data_projects (ad : List (ProjectData × List UsageEntry))
    (now tz : Int) :
    (calculate_usage_data ad now tz).projects
      = List.insertionSort
          (fun a b : ProjectStats => (b.last_activity.getD "") ≤ (a.last_activity.getD ""))
          ((ad.filter (fun pe => ¬ pe.2.isEmpty)).map
            (fun pe => calculate_project_stats pe.1 pe.2)) := rfl

theorem diskCache_appendLine (env : Env) (d : Disk) (p : String) (ln : SourceLine) :
    diskCache env (appendLine d p ln)
      = d.allFiles.map (fun f => (f.path, fileEntry env (bumpFile p ln f))) := by
  rw [diskCache, allFiles_appendLine, List.map_map]
  apply List.map_congr_left
  intro f _
  rw [Function.comp_apply, bumpFile_path]

theorem cacheAllData_eq (env : Env) (dd : Disk) (mgr : CacheManager)
    (hfc : mgr.file_cache = diskCache env dd)
    (hnodup : (dd.allFiles.map SrcFile.path).Nodup) :
    cacheAllData mgr (listedProjects dd) = diskAllData env dd := by
  rw [cacheAllData, listedProjects, diskAllData, List.map_filterMap]
  apply List.filterMap_congr
  intro dir hdir
  by_cases he : dir.files.isEmpty
  · rw [if_pos he, if_pos he]
    rfl
  · rw [if_neg he, if_neg he]
    rw [show ((some (toProjectData dir)).map (fun pr =>
        (pr, pr.session_files.flatMap (fun f => (get_file_entries mgr f).getD []))))
      = some (toProjectData dir, (toProjectData dir).session_files.flatMap
          (fun f => (get_file_entries mgr f).getD [])) from rfl]
    congr 1
    congr 1
    rw [show (toProjectData dir).session_files = dir.files.map SrcFile.path from rfl]
    rw [List.flatMap_map, projEntries]
    apply List.flatMap_congr
    intro f hf
    rw [get_file_entries, hfc, diskCache, lookupA_map_pairs]
    rw [show dd.allFiles.find? (fun a => a.path = f.path) = some f from
      findFile_mem dd f hnodup (List.mem_flatMap.mpr ⟨dir, hdir, hf⟩)]
    rfl

/-- C1 (corrected): after a full load, appending one line to one file and
running the incremental refresh yields the same usage-data snapshot as a
forced full reload of the new disk state, and the delta's updated-projects
list is the snapshot's project list filtered to the owning project's
decoded path -- which is exactly the one ProjectStats of the owning project
provided that project has at least one parsed entry afterwards, and is
empty otherwise (in which case the delta also reports no changes). -/
theorem c1_incremental_consistency (env : Env) (d : Disk) (now tz : Int) (rescan : Bool)
    (p : String) (ln : SourceLine) (dir : ProjDir) (f0 : SrcFile) (mgr1 : CacheManager)
    (dd : Disk) (hdd : dd = appendLine d p ln)
    (hroot : d.root_exists = true)
    (hnodup : (d.allFiles.map SrcFile.path).Nodup)
    (hdec : ((listedProjects d).map ProjectData.decoded_path).Nodup)
    (hdir : dir ∈ d.dirs) (hf0 : f0 ∈ dir.files) (hp : f0.path = p)
    (hmgr : ∀ mgr0 : CacheManager, (full_load env d now tz mgr0).map Prod.fst = .ok mgr1) :
    ∃ mgr2 data2 delta,
      incremental_load_with_delta env dd now tz rescan mgr1 = .ok (mgr2, data2, delta)
      ∧ (∀ mgr0 res, full_load env dd now tz mgr0 = .ok res → data2 = res.2)
      ∧ delta.full_refresh = false
      ∧ delta.updated_projects
          = data2.projects.filter
              (fun ps => ps.project_path = decode_project_path dir.encoded_path)
      ∧ (projEntries env (bumpDir p ln dir) ≠ [] →
          delta.updated_projects
            = [calculate_project_stats (toProjectData dir)
                (projEntries env (bumpDir p ln dir))])
      ∧ delta.has_changes = !delta.updated_projects.isEmpty := by
  -- the manager a full load leaves behind
  have h0 := hmgr CacheManager.empty
  rw [full_load_eq env d now tz CacheManager.empty hroot hnodup] at h0
  have hm1 : mgr1 = { file_cache := diskCache env d, cached_projects := listedProjects d } := by
    have h1 : ((Except.ok
          ({ file_cache := diskCache env d, cached_projects := listedProjects d },
            calculate_usage_data (diskAllData env d) now tz) :
          Except ReaderError (CacheManager × UsageData)).map Prod.fst)
        = .ok ({ file_cache := diskCache env d,
                 cached_projects := listedProjects d } : CacheManager) := rfl
    rw [h1] at h0
    exact (Except.ok.inj h0).symm
  -- basic facts about the bumped disk
  have hroot2 : dd.root_exists = true := by rw [hdd]; exact hroot
  have hpaths2 : dd.allFiles.map SrcFile.path = d.allFiles.map SrcFile.path := by
    rw [hdd, allFiles_appendLine, List.map_map]
    apply List.map_congr_left
    intro f _
    rw [Function.comp_apply, bumpFile_path]
  have hnodup2 : (dd.allFiles.map SrcFile.path).Nodup := by rw [hpaths2]; exact hnodup
  have hlisted2 : listedProjects dd = listedProjects d := by
    rw [hdd]
    exact listedProjects_appendLine d p ln
  have hmemf0 : f0 ∈ d.allFiles := List.mem_flatMap.mpr ⟨dir, hdir, hf0⟩
  have hfind2 : ∀ g ∈ d.allFiles, dd.findFile g.path = some (bumpFile p ln g) := by
    intro g hg
    have hmem2 : bumpFile p ln g ∈ dd.allFiles := by
      rw [hdd, allFiles_appendLine]
      exact List.mem_map_of_mem _ hg
    have h := findFile_mem dd (bumpFile p ln g) hnodup2 hmem2
    rw [bumpFile_path] at h
    exact h
  have hlook : ∀ g ∈ d.allFiles,
      lookupA g.path (diskCache env d) = some (fileEntry env g) := by
    intro g hg
    rw [diskCache, lookupA_map_pairs]
    rw [show d.allFiles.find? (fun a => a.path = g.path) = some g from
      findFile_mem d g hnodup hg]
    rfl
  have hall : (listedProjects dd).flatMap ProjectData.session_files
      = d.allFiles.map SrcFile.path := by rw [listed_files dd, hpaths2]
  -- the registry is not empty
  have hempty : mgr1.is_empty = false := by
    rw [hm1]
    rw [show ({ file_cache := diskCache env d,
                cached_projects := listedProjects d } : CacheManager).is_empty
      = (diskCache env d).isEmpty from rfl]
    rw [diskCache]
    cases hq : d.allFiles with
    | nil => rw [hq] at hmemf0; cases hmemf0
    | cons a l => rfl
  -- the manager after the optional directory rescan
  have hM : ∃ cp, (if rescan = true then { mgr1 with cached_projects := listedProjects dd }
      else mgr1) = { file_cache := diskCache env d, cached_projects := cp } := by
    cases rescan
    · exact ⟨listedProjects d, by rw [if_neg Bool.false_ne_true]; exact hm1⟩
    · exact ⟨listedProjects dd, by rw [if_pos rfl, hm1]⟩
  obtain ⟨cp, hM⟩ := hM
  -- the file-diff result: exactly the bumped path is modified
  have hmod : ∀ fp ∈ (listedProjects dd).flatMap ProjectData.session_files,
      isModifiedFile dd { file_cache := diskCache env d, cached_projects := cp } fp
        = decide (fp = p) := by
    intro fp hfp
    rw [hall] at hfp
    obtain ⟨g, hg, rfl⟩ := List.mem_map.mp hfp
    rw [isModifiedFile, hfind2 g hg]
    dsimp only
    rw [hlook g hg]
    dsimp only
    rw [show (fileEntry env g).mtime = g.mtime from rfl]
    rw [bumpFile]
    by_cases hgp : g.path = p
    · rw [if_pos hgp]
      simp [hgp]
    · rw [if_neg hgp]
      simp [hgp]
  have hnew : ∀ fp ∈ (listedProjects dd).flatMap ProjectData.session_files,
      isNewFile dd { file_cache := diskCache env d, cached_projects := cp } fp = false := by
    intro fp hfp
    rw [hall] at hfp
    obtain ⟨g, hg, rfl⟩ := List.mem_map.mp hfp
    rw [isNewFile, hfind2 g hg]
    dsimp only
    rw [hlook g hg]
  have hdel : (keysA ({ file_cache := diskCache env d,
                        cached_projects := cp } : CacheManager).file_cache).filter
      (fun q => ¬ q ∈ (listedProjects dd).flatMap ProjectData.session_files) = [] := by
    apply filter_false_nil
    intro q hq
    rw [show ({ file_cache := diskCache env d,
                cached_projects := cp } : CacheManager).file_cache = diskCache env d from rfl,
      diskCache, keysA_map_pairs] at hq
    simp only [decide_eq_false_iff_not, not_not]
    rw [hall]
    exact hq
  have hsing : ((listedProjects dd).flatMap ProjectData.session_files).filter
      (fun fp => fp = p) = [p] := by
    apply filter_key_singleton (fun y => y) p p
    · rw [hall]
      simpa using hnodup
    · rw [hall, ← hp]
      exact List.mem_map_of_mem _ hmemf0
    · rfl
  have hchg : check_file_changes dd { file_cache := diskCache env d, cached_projects := cp }
      ((listedProjects dd).flatMap ProjectData.session_files)
      = .ok { modified := [p], new_files := [], deleted := [] } := by
    rw [check_file_changes_eq]
    rw [List.filter_congr hmod]
    rw [show ((listedProjects dd).flatMap ProjectData.session_files).filter
        (isNewFile dd { file_cache := diskCache env d, cached_projects := cp }) = []
      from filter_false_nil _ _ hnew]
    rw [hdel, hsing]
  -- attribution of the changed file to its owning project
  have hattr : attributeStep (listedProjects dd) [] p
      = [decode_project_path dir.encoded_path] := by
    rw [attributeStep]
    have hdne : ¬ dir.files.isEmpty = true := by
      cases hq : dir.files
      · rw [hq] at hf0; cases hf0
      · simp
    have hfindpr : (listedProjects dd).find? (fun pr => decide (p ∈ pr.session_files))
        = some (toProjectData dir) := by
      apply find?_eq_some_unique
      · rw [hlisted2]
        apply List.mem_filterMap.mpr
        exact ⟨dir, hdir, by rw [if_neg hdne]⟩
      · simp only [decide_eq_true_eq]
        rw [show (toProjectData dir).session_files = dir.files.map SrcFile.path from rfl,
          ← hp]
        exact List.mem_map_of_mem _ hf0
      · intro pr hpr hq
        rw [hlisted2] at hpr
        obtain ⟨dir2, hdir2, hval⟩ := List.mem_filterMap.mp hpr
        by_cases hdne2 : dir2.files.isEmpty
        · rw [if_pos hdne2] at hval; cases hval
        · rw [if_neg hdne2] at hval
          have hpr2 : pr = toProjectData dir2 := (Option.some.inj hval).symm
          rw [hpr2] at hq
          simp only [decide_eq_true_eq] at hq
          have hq2 : p ∈ dir2.files.map SrcFile.path := hq
          have hq1 : p ∈ dir.files.map SrcFile.path := by
            rw [← hp]
            exact List.mem_map_of_mem _ hf0
          have hde : dir2 = dir := dirs_owner_unique dir2 dir p d.dirs hnodup
            hdir2 hdir hq2 hq1
          rw [hpr2, hde]
    rw [hfindpr]
    dsimp only
    rw [insertS, if_neg (List.not_mem_nil _)]
    rfl
  -- the registry update turns the old cache into the new full cache
  have hfp0 : dd.findFile p = some (bumpFile p ln f0) := by
    have h := hfind2 f0 hmemf0
    rw [hp] at h
    exact h
  have hfcd : insertA p (fileEntry env (bumpFile p ln f0)) (diskCache env d)
      = diskCache env dd := by
    rw [hdd, diskCache_appendLine]
    exact insertA_map_update SrcFile.path (fileEntry env)
      (fun a => fileEntry env (bumpFile p ln a)) p (fileEntry env (bumpFile p ln f0))
      d.allFiles hnodup ⟨f0, hmemf0, hp⟩
      (fun a _ hap => by
        show fileEntry env (bumpFile p ln a) = fileEntry env a
        rw [show bumpFile p ln a = a from by rw [bumpFile, if_neg hap]])
      (fun a ha hap => by
        show fileEntry env (bumpFile p ln a) = fileEntry env (bumpFile p ln f0)
        have hae : a = f0 := List.inj_on_of_nodup_map hnodup ha hmemf0 (by rw [hap, hp])
        rw [hae])
  have hread : readUpdateStep env dd { file_cache := diskCache env d, cached_projects := cp } p
      = { file_cache := diskCache env dd, cached_projects := cp } := by
    rw [readUpdateStep, readFileOnDisk, hfp0]
    dsimp only
    rw [update_file_cache, hfp0]
    dsimp only
    rw [show ({ mtime := (Option.map SrcFile.mtime (some (bumpFile p ln f0))).getD 0,
                entries := read_jsonl_file env (bumpFile p ln f0).lines } : FileCacheEntry)
      = fileEntry env (bumpFile p ln f0) from rfl, hfcd]
  have hcad : cacheAllData { file_cache := diskCache env dd, cached_projects := cp }
      (listedProjects dd) = diskAllData env dd :=
    cacheAllData_eq env dd _ rfl hnodup2
  -- assemble the incremental run
  refine ⟨{ file_cache := diskCache env dd, cached_projects := cp },
    calculate_usage_data (diskAllData env dd) now tz,
    { has_changes := !((calculate_usage_data (diskAllData env dd) now tz).projects.filter
          (fun ps => ps.project_path ∈ [decode_project_path dir.encoded_path])).isEmpty
      full_refresh := false
      updated_projects := (calculate_usage_data (diskAllData env dd) now tz).projects.filter
          (fun ps => ps.project_path ∈ [decode_project_path dir.encoded_path])
      overall_stats := if !((calculate_usage_data (diskAllData env dd) now tz).projects.filter
          (fun ps => ps.project_path ∈ [decode_project_path dir.encoded_path])).isEmpty
        then some (calculate_usage_data (diskAllData env dd) now tz).overall_stats else none
      daily_usage := if !((calculate_usage_data (diskAllData env dd) now tz).projects.filter
          (fun ps => ps.project_path ∈ [decode_project_path dir.encoded_path])).isEmpty
        then some (calculate_usage_data (diskAllData env dd) now tz).daily_usage else none },
    ?_, ?_, rfl, ?_, ?_, rfl⟩
  · -- the run itself
    rw [incremental_load_with_delta, hempty, if_neg Bool.false_ne_true]
    rw [list_projects_ok dd hroot2]
    dsimp only
    rw [hM, hchg]
    dsimp only
    simp only [List.cons_append, List.nil_append, List.append_nil, List.foldl_cons,
      List.foldl_nil]
    rw [hattr]
    rw [hread, hcad]
  · -- snapshot agreement with a forced full reload
    intro mgr0 res h
    rw [full_load_eq env dd now tz mgr0 hroot2 hnodup2] at h
    rw [← Except.ok.inj h]
  · -- the delta is the projects filtered to the owner's decoded path
    apply List.filter_congr
    intro ps _
    exact decide_eq_decide.mpr (List.mem_singleton)
  · -- with at least one parsed entry, exactly the owner's stats survive
    intro hne5
    have hfe : ((calculate_usage_data (diskAllData env dd) now tz).projects.filter
          (fun ps => ps.project_path ∈ [decode_project_path dir.encoded_path]))
        = (calculate_usage_data (diskAllData env dd) now tz).projects.filter
          (fun ps => ps.project_path = decode_project_path dir.encoded_path) := by
      apply List.filter_congr
      intro ps _
      exact decide_eq_decide.mpr (List.mem_singleton)
    rw [hfe, calculate_usage_data_projects]
    have hBnodup : ((((diskAllData env dd).filter (fun pe => ¬ pe.2.isEmpty)).map
        (fun pe => calculate_project_stats pe.1 pe.2)).map ProjectStats.project_path).Nodup := by
      rw [List.map_map]
      have hmapB : ((diskAllData env dd).filter (fun pe => ¬ pe.2.isEmpty)).map
            (ProjectStats.project_path ∘ fun pe => calculate_project_stats pe.1 pe.2)
          = ((diskAllData env dd).filter (fun pe => ¬ pe.2.isEmpty)).map
            (fun pe => pe.1.decoded_path) := by
        apply List.map_congr_left
        intro pe _
        exact calculate_project_stats_path pe.1 pe.2
      rw [hmapB]
      have hsubl : List.Sublist
          (((diskAllData env dd).filter (fun pe => ¬ pe.2.isEmpty)).map
            (fun pe => pe.1.decoded_path))
          ((diskAllData env dd).map (fun pe => pe.1.decoded_path)) :=
        (List.filter_sublist _).map _
      have hfull : ((diskAllData env dd).map (fun pe => pe.1.decoded_path)).Nodup := by
        have hsplit : (diskAllData env dd).map
              (fun pe : ProjectData × List UsageEntry => pe.1.decoded_path)
            = ((diskAllData env dd).map Prod.fst).map ProjectData.decoded_path := by
          rw [List.map_map]
          apply List.map_congr_left
          intro pe _
          rfl
        rw [hsplit, diskAllData_fst env dd, hlisted2]
        exact hdec
      exact List.Nodup.sublist hsubl hfull
    have hdirne2 : (bumpDir p ln dir).files.isEmpty = false := by
      cases hq : dir.files with
      | nil => rw [hq] at hf0; cases hf0
      | cons a l =>
        rw [show (bumpDir p ln dir).files = dir.files.map (bumpFile p ln) from rfl, hq]
        rfl
    have hpairmem : (toProjectData dir, projEntries env (bumpDir p ln dir))
        ∈ diskAllData env dd := by
      rw [hdd]
      rw [show diskAllData env (appendLine d p ln)
          = (d.dirs.map (bumpDir p ln)).filterMap (fun dir2 =>
            if dir2.files.isEmpty then none
            else some (toProjectData dir2, projEntries env dir2)) from rfl]
      apply List.mem_filterMap.mpr
      refine ⟨bumpDir p ln dir, List.mem_map_of_mem _ hdir, ?_⟩
      rw [hdirne2, if_neg Bool.false_ne_true, toProjectData_bumpDir]
    have hfiltmem : (toProjectData dir, projEntries env (bumpDir p ln dir))
        ∈ (diskAllData env dd).filter (fun pe => ¬ pe.2.isEmpty) := by
      apply List.mem_filter.mpr
      refine ⟨hpairmem, ?_⟩
      cases hq : projEntries env (bumpDir p ln dir) with
      | nil => exact absurd hq hne5
      | cons a l => simp
    have hBsing : (((diskAllData env dd).filter (fun pe => ¬ pe.2.isEmpty)).map
          (fun pe => calculate_project_stats pe.1 pe.2)).filter
          (fun ps => ps.project_path = decode_project_path dir.encoded_path)
        = [calculate_project_stats (toProjectData dir)
            (projEntries env (bumpDir p ln dir))] := by
      apply filter_key_singleton ProjectStats.project_path
        (calculate_project_stats (toProjectData dir) (projEntries env (bumpDir p ln dir)))
        (decode_project_path dir.encoded_path) _ hBnodup
        (List.mem_map_of_mem _ hfiltmem)
      exact calculate_project_stats_path (toProjectData dir)
        (projEntries env (bumpDir p ln dir))
    have hperm := (List.perm_insertionSort
      (fun a b : ProjectStats => (b.last_activity.getD "") ≤ (a.last_activity.getD ""))
      (((diskAllData env dd).filter (fun pe => ¬ pe.2.isEmpty)).map
        (fun pe => calculate_project_stats pe.1 pe.2))).filter
      (fun ps => ps.project_path = decode_project_path dir.encoded_path)
    rw [hBsing] at hperm
    exact List.perm_singleton.mp hperm

/-- A session file whose single line fails JSON parsing. -/
def c1BadFile : SrcFile := { path := "a.jsonl", mtime := 0, lines := [none] }

/-- A one-file project directory. -/
def c1Dir : ProjDir := { encoded_path := "-home-user-proj", files := [c1BadFile] }

/-- A one-project disk with an existing root. -/
def c1Disk : Disk := { root_exists := true, dirs := [c1Dir] }

/-- The cache manager a full load of c1Disk leaves behind. -/
def c1Mgr : CacheManager :=
  { file_cache := diskCache envZ c1Disk, cached_projects := listedProjects c1Disk }

/-- A line that parses into a usage entry (1 input token, cost 0). -/
def c1GoodLine : SourceLine :=
  some { event_type := none
         message := none
         timestamp := some "t"
         cost := some 0
         usage := some { input_tokens := some 1, output_tokens := none
                         cache_creation_tokens := none, cache_read_tokens := none }
         message_id := none, request_id := none }

/-- Counterexample to C1 as stated: on a disk whose one project holds one
file with a single malformed line, appending another malformed line after
a full load is an append to one file, yet the incremental delta's
updated-projects list is empty (the owning project has no parsed entries,
so it never appears in the snapshot's project list) and the delta reports
no changes -- not the one ProjectStats of the owning project the claim
promises. -/
theorem c1_counterexample :
    ∃ mgr2 data2 delta,
      incremental_load_with_delta envZ (appendLine c1Disk "a.jsonl" none) 0 0 false c1Mgr
        = .ok (mgr2, data2, delta)
      ∧ delta.full_refresh = false
      ∧ delta.updated_projects = []
      ∧ delta.has_changes = false := by
  refine ⟨_, _, _, rfl, rfl, ?_, ?_⟩
  · rfl
  · rfl

/-- Witness: the corrected statement instantiated on c1Disk with a parsable
appended line; the owning project then has one parsed entry, so the delta
holds exactly its ProjectStats. -/
theorem c1_incremental_consistency_witness :
    ∃ mgr2 data2 delta,
      incremental_load_with_delta envZ (appendLine c1Disk "a.jsonl" c1GoodLine) 0 0 false
          c1Mgr
        = .ok (mgr2, data2, delta)
      ∧ (∀ mgr0 res, full_load envZ (appendLine c1Disk "a.jsonl" c1GoodLine) 0 0 mgr0
            = .ok res → data2 = res.2)
      ∧ delta.full_refresh = false
      ∧ delta.updated_projects
          = data2.projects.filter
              (fun ps => ps.project_path = decode_project_path c1Dir.encoded_path)
      ∧ (projEntries envZ (bumpDir "a.jsonl" c1GoodLine c1Dir) ≠ [] →
          delta.updated_projects
            = [calculate_project_stats (toProjectData c1Dir)
                (projEntries envZ (bumpDir "a.jsonl" c1GoodLine c1Dir))])
      ∧ delta.has_changes = !delta.updated_projects.isEmpty :=
  c1_incremental_consistency envZ c1Disk 0 0 false "a.jsonl" c1GoodLine c1Dir c1BadFile
    c1Mgr (appendLine c1Disk "a.jsonl" c1GoodLine) rfl rfl (by decide) (by decide)
    (List.mem_cons_self _ _) (List.mem_cons_self _ _) rfl
    (fun mgr0 => by
      rw [full_load_eq envZ c1Disk 0 0 mgr0 rfl (by decide)]
      rfl)

end UsageTracker